import Mathlib

/-!
Verification of the commit-history mining and ownership-aggregation engine:
a shallow embedding of the analyzers (commit_analyzer.py, ownership_analyzer.py),
the response cache and analysis gate (api/chat.py, api/repository.py), together
with theorems settling the specification's testable properties.

Strings are modelled as Lean `String`s; the character-level operations of
Python (`lower`, `strip`, `split`, substring search, `count`) are embedded as
executable functions on `List Char`.  Timestamps are integers, database tables
are lists of rows in insertion order, and SQL `filter_by(...).first()` is
`List.find?`.
-/

namespace CodebaseTM

/-- Whitespace characters recognized by Python str.strip(). -/
def isPySpace (c : Char) : Bool :=
  c = ' ' || c = '\t' || c = '\n' || c = '\r' || c = '\x0b' || c = '\x0c'

/-- Model of Python str.lower() on a character list (ASCII case folding). -/
def pyLower (l : List Char) : List Char := l.map Char.toLower

/-- Model of Python str.strip(): drop leading and trailing whitespace. -/
def pyStrip (l : List Char) : List Char :=
  ((l.dropWhile isPySpace).reverse.dropWhile isPySpace).reverse

/-- Model of message.split(chr(10))[0]: the first line of a message. -/
def firstLine (l : List Char) : List Char := l.takeWhile (fun c => c ≠ '\n')

/-- Model of Python filename.split(sep) for a one-character separator, keeping
empty segments; the result is always non-empty. -/
def splitDots : List Char → List (List Char)
  | [] => [[]]
  | c :: rest =>
    if c = '.' then [] :: splitDots rest
    else
      match splitDots rest with
      | [] => [[c]]
      | s :: ss => (c :: s) :: ss

/-- CommitAnalyzer._get_file_extension: when the filename contains a dot,
the lower-cased last segment of filename.split(dot); otherwise None. -/
def getFileExtension (filename : String) : Option String :=
  if '.' ∈ filename.data then
    some (String.mk (pyLower ((splitDots filename.data).getLastD [])))
  else
    none

/-- Model of the Python substring test (keyword in message). -/
def substrB (pat : List Char) : List Char → Bool
  | [] => pat.isEmpty
  | c :: rest => pat.isPrefixOf (c :: rest) || substrB pat rest

/-- Fuel-driven worker for countOcc; the fuel dominates the length of the
scanned list, so countOcc never exhausts it. -/
def countOccF (pat : List Char) : Nat → List Char → Nat
  | 0, _ => 0
  | _ + 1, [] => if pat.isEmpty then 1 else 0
  | fuel + 1, c :: rest =>
    if pat.isPrefixOf (c :: rest) then
      1 + countOccF pat fuel (rest.drop (pat.length - 1))
    else
      countOccF pat fuel rest

/-- Model of Python message.count(keyword): non-overlapping occurrences,
scanning left to right. -/
def countOcc (s pat : List Char) : Nat := countOccF pat (s.length + 1) s

/-- Ordered commit-message type patterns of get_commit_patterns; each regex
of the form a caret followed by (alt1|alt2|...) is recorded as its list of
literal alternatives, in the dictionary's insertion order. -/
def typePatterns : List (String × List String) :=
  [("feat", ["feat", "feature"]),
   ("fix", ["fix", "bugfix"]),
   ("docs", ["docs", "doc"]),
   ("style", ["style"]),
   ("refactor", ["refactor"]),
   ("test", ["test"]),
   ("chore", ["chore"]),
   ("merge", ["merge", "merged"]),
   ("initial", ["initial", "init"]),
   ("update", ["update"]),
   ("add", ["add", "added"]),
   ("remove", ["remove", "removed", "delete"])]

/-- Python re.match of an anchored alternation of literals: does the message
start with one of the alternatives? -/
def matchesAlts (alts : List String) (msg : List Char) : Bool :=
  alts.any (fun a => a.data.isPrefixOf msg)

/-- Normalization applied by get_commit_patterns before matching:
message.lower().strip(). -/
def normalizeMsg (msg : String) : List Char := pyStrip (pyLower msg.data)

/-- Loop body of the classifier in get_commit_patterns: try the patterns in
order; the first match wins and the loop breaks; an unmatched message is
counted as "other". -/
def classifyGo (m : List Char) : List (String × List String) → String
  | [] => "other"
  | p :: rest => if matchesAlts p.2 m then p.1 else classifyGo m rest

/-- Classification of one commit message by get_commit_patterns. -/
def classifyMessage (msg : String) : String :=
  classifyGo (normalizeMsg msg) typePatterns

/-- Deterministic stand-in for the hashlib.md5 hex digest used by
_generate_query_hash.  The digest itself is an external library collaborator;
every property proved below depends only on the digest being a function of
the content string, which holds for md5 as well. -/
def digestModel (content : List Char) : Nat :=
  content.foldl (fun h c => (h * 131 + c.toNat) % (2 ^ 128)) 7

/-- chat._generate_query_hash: digest of "{repository_id}:{query.lower().strip()}". -/
def generateQueryHash (repositoryId : Nat) (queryText : String) : Nat :=
  digestModel ((toString repositoryId).data ++ ':' :: pyStrip (pyLower queryText.data))

/-- Row of the query_cache table. -/
structure QueryCacheRec where
  query_hash : Nat
  repo_id : Nat
  query_text : String
  response : String
  created_at : Int
  expires_at : Int
  hit_count : Nat
deriving DecidableEq

/-- Replace the first element satisfying p by its image under f, leaving
everything else untouched (an in-place SQL row update). -/
def updateFirst {α : Type} (p : α → Bool) (f : α → α) : List α → List α
  | [] => []
  | e :: rest => if p e then f e :: rest else e :: updateFirst p f rest

/-- chat._get_cached_response on a table of cache rows: look up the first row
with the query hash; on a hit (now strictly before expires_at) return the
stored response and creation time and bump hit_count by one; otherwise
report a miss and leave the table unchanged. -/
def getCachedResponse (now : Int) (table : List QueryCacheRec)
    (repositoryId : Nat) (queryText : String) :
    Option (String × Int) × List QueryCacheRec :=
  match table.find? (fun e => e.query_hash == generateQueryHash repositoryId queryText) with
  | some e =>
    if now < e.expires_at then
      (some (e.response, e.created_at),
       updateFirst (fun r => r.query_hash == generateQueryHash repositoryId queryText)
         (fun r => { r with hit_count := r.hit_count + 1 }) table)
    else
      (none, table)
  | none => (none, table)

/-! Ownership aggregation (ownership_analyzer._analyze_file_ownership). -/

/-- Join row of (FileChange, Commit) for one file, as consumed by
_analyze_file_ownership; insertions/deletions are nullable columns. -/
structure ChangeJoin where
  author_name : String
  author_email : String
  timestamp : Int
  insertions : Option Nat
  deletions : Option Nat
deriving DecidableEq

/-- Accumulator value of the author_contributions defaultdict. -/
structure AuthorAcc where
  lines_added : Nat
  lines_removed : Nat
  commits : Nat
  first_contribution : Option Int
  last_contribution : Option Int
  email : Option String
deriving DecidableEq

/-- Initial defaultdict value for a new author. -/
def emptyAcc : AuthorAcc :=
  { lines_added := 0, lines_removed := 0, commits := 0,
    first_contribution := none, last_contribution := none, email := none }

/-- Body of the accumulation loop of _analyze_file_ownership for one change
row of the tracked author. -/
def accStep (acc : AuthorAcc) (ch : ChangeJoin) : AuthorAcc :=
  { lines_added := acc.lines_added + ch.insertions.getD 0
    lines_removed := acc.lines_removed + ch.deletions.getD 0
    commits := acc.commits + 1
    email := some ch.author_email
    first_contribution :=
      match acc.first_contribution with
      | none => some ch.timestamp
      | some t => if ch.timestamp < t then some ch.timestamp else some t
    last_contribution :=
      match acc.last_contribution with
      | none => some ch.timestamp
      | some t => if ch.timestamp > t then some ch.timestamp else some t }

/-- Accumulated contribution data of one author: the defaultdict entry for
that author after the loop, i.e. the fold of accStep over exactly the change
rows whose commit carries that author name. -/
def authorAcc (changes : List ChangeJoin) (author : String) : AuthorAcc :=
  (changes.filter (fun ch => ch.author_name == author)).foldl accStep emptyAcc

/-- Keys of a Python dict in insertion order: first occurrences, in order. -/
def firstOccs : List String → List String
  | [] => []
  | a :: rest => a :: (firstOccs rest).filter (fun b => b != a)

/-- Half-to-even integer rounding of a rational: the tie-breaking rule used
both by IEEE-754 round-to-nearest (applied below to binary significands) and
by CPython's correctly rounded decimal conversions (applied below to exact
decimal digit strings). -/
def rndHalfEven (x : ℚ) : ℤ :=
  if Int.fract x < 1 / 2 then ⌊x⌋
  else if 1 / 2 < Int.fract x then ⌊x⌋ + 1
  else if Even ⌊x⌋ then ⌊x⌋ else ⌊x⌋ + 1

/-- Exact decimal rounding to two places of an exact rational value: the
decimal step of CPython round(x, 2), which rounds the exact binary value of
the double x to two decimal digits with ties to even. -/
def round2 (x : ℚ) : ℚ := (rndHalfEven (100 * x) : ℚ) / 100

/-- IEEE-754 binary64 rounding to nearest, ties to even: the exact rational
value of the double closest to x.  The significand is the half-even integer
rounding of x scaled by the power of two that puts it in the 53-bit range.
Overflow and subnormal underflow are not modelled; every float arising in
the ownership percentages (quotients in [0, 1] and percentages in [0, 102])
is a normal double far from either limit. -/
def fl64 (x : ℚ) : ℚ :=
  if 0 < x then
    (rndHalfEven (x * 2 ^ (52 - Int.log 2 x)) : ℚ) * 2 ^ (Int.log 2 x - 52)
  else if x < 0 then
    -((rndHalfEven (-x * 2 ^ (52 - Int.log 2 (-x))) : ℚ) * 2 ^ (Int.log 2 (-x) - 52))
  else 0

/-- CPython round(x, 2) on a float x: the exact value of x is rounded to two
decimal places with ties to even, and the resulting decimal value is
converted back to the nearest double. -/
def pyRound2 (x : ℚ) : ℚ := fl64 (round2 x)

/-- Python true division of two ints: the correctly rounded double of the
exact quotient. -/
def floatDiv (a T : ℕ) : ℚ := fl64 ((a : ℚ) / (T : ℚ))

/-- Float evaluation of lines_added / total_lines_added * 100: divide, then
multiply, each operation correctly rounded to binary64. -/
def pctFloat (a T : ℕ) : ℚ := fl64 (floatDiv a T * 100)

/-- One entry of the ownership_data list produced by _analyze_file_ownership. -/
structure OwnershipData where
  author_name : String
  author_email : Option String
  lines_contributed : Int
  commits_count : Nat
  percentage : ℚ
  first_contribution : Option Int
  last_contribution : Option Int
deriving DecidableEq

/-- Row built by _analyze_file_ownership for one author, given the total of
gross added lines across all authors of the file. -/
def ownershipRow (changes : List ChangeJoin) (total : Nat) (author : String) :
    OwnershipData :=
  let d := authorAcc changes author
  { author_name := author
    author_email := d.email
    lines_contributed := max 0 ((d.lines_added : Int) - (d.lines_removed : Int))
    commits_count := d.commits
    percentage :=
      pyRound2 (if 0 < total then pctFloat d.lines_added total else 0)
    first_contribution := d.first_contribution
    last_contribution := d.last_contribution }

/-- Descending-percentage order used by the final sort of
_analyze_file_ownership (sort with key percentage, reverse=True). -/
def pctGe (x y : OwnershipData) : Prop := y.percentage ≤ x.percentage

instance : DecidableRel pctGe := fun x y => by unfold pctGe; infer_instance

/-- Authors of a change list in dict insertion order. -/
def ownershipAuthors (changes : List ChangeJoin) : List String :=
  firstOccs (changes.map (fun ch => ch.author_name))

/-- Total gross added lines of a change list, summed over the author
accumulators exactly as the Python code sums the dict values. -/
def totalLinesAdded (changes : List ChangeJoin) : Nat :=
  ((ownershipAuthors changes).map (fun a => (authorAcc changes a).lines_added)).sum

/-- ownership_analyzer._analyze_file_ownership: group the change rows of one
file by author name, accumulate gross added/removed lines, commit count and
first/last timestamps, derive net contribution and percentage, and sort
descending by percentage (stable). -/
def analyzeFileOwnership (changes : List ChangeJoin) : List OwnershipData :=
  if changes.isEmpty then []
  else
    ((ownershipAuthors changes).map
      (ownershipRow changes (totalLinesAdded changes))).insertionSort pctGe

/-! Feature relevance search (commit_analyzer.find_feature_introduction_commits). -/

/-- Row of the commits table (database.models.Commit). -/
structure CommitRow where
  id : String
  repo_id : Nat
  author_name : String
  author_email : String
  committer_name : String
  committer_email : String
  timestamp : Int
  message : String
  files_changed : Nat
  insertions : Nat
  deletions : Nat
  is_merge : Bool
  branch : Option String
deriving DecidableEq

/-- Fixed feature-indicator words of find_feature_introduction_commits. -/
def featureIndicators : List String :=
  ["add", "implement", "create", "introduce", "new", "feat"]

/-- Body of the keyword loop of find_feature_introduction_commits: when the
lower-cased keyword occurs in the lower-cased message, add occurrences times
two, and three more when it also occurs in the first line. -/
def keywordStep (ml fl : List Char) (s : Int) (k : String) : Int :=
  let kl := pyLower k.data
  if substrB kl ml then
    let s2 := s + (countOcc ml kl : Int) * 2
    if substrB kl fl then s2 + 3 else s2
  else s

/-- Body of the indicator loop: one point per indicator present anywhere in
the lower-cased message. -/
def indicatorStep (ml : List Char) (s : Int) (ind : String) : Int :=
  if substrB ind.data ml then s + 1 else s

/-- Relevance score of one matching commit, exactly as accumulated by the
scoring loops: per present keyword, occurrences times two plus a title bonus
of three; plus one per present indicator word; minus two for a merge commit. -/
def relevanceScore (c : CommitRow) (keywords : List String) : Int :=
  let ml := pyLower c.message.data
  let fl := pyLower (firstLine c.message.data)
  let s3 := featureIndicators.foldl (indicatorStep ml)
    (keywords.foldl (keywordStep ml fl) 0)
  if c.is_merge then s3 - 2 else s3

/-- Score formula of the specification: for every keyword, twice its
occurrence count in the full message plus three when it appears in the first
line; plus one per feature-indicator word present; minus two for a merge. -/
def specScore (c : CommitRow) (keywords : List String) : Int :=
  (keywords.map (fun k =>
      2 * (countOcc (pyLower c.message.data) (pyLower k.data) : Int) +
      (if substrB (pyLower k.data) (pyLower (firstLine c.message.data))
        then 3 else 0))).sum
  + (featureIndicators.map
      (fun ind => if substrB ind.data (pyLower c.message.data)
        then (1 : Int) else 0)).sum
  - (if c.is_merge then 2 else 0)

/-- Keywords actually found in the commit message (collected by the same
loop that scores the commit). -/
def matchedKeywords (c : CommitRow) (keywords : List String) : List String :=
  keywords.filter (fun k => substrB (pyLower k.data) (pyLower c.message.data))

/-- Scored intermediate entry of find_feature_introduction_commits. -/
structure ScoredCommit where
  commit : CommitRow
  score : Int
  matched_keywords : List String
deriving DecidableEq

/-- Sort order of the final ranking: score descending, then timestamp
ascending (the Python key (-score, timestamp)). -/
def scoredLe (a b : ScoredCommit) : Prop :=
  b.score < a.score ∨ (a.score = b.score ∧ a.commit.timestamp ≤ b.commit.timestamp)

instance : DecidableRel scoredLe := fun a b => by unfold scoredLe; infer_instance

/-- Chronological order used by the SQL order_by(Commit.timestamp). -/
def tsLe (a b : CommitRow) : Prop := a.timestamp ≤ b.timestamp

instance : DecidableRel tsLe := fun a b => by unfold tsLe; infer_instance

/-- SQL selection of find_feature_introduction_commits: commits whose
lower-cased message contains some keyword, in timestamp order. -/
def matchingCommits (commits : List CommitRow) (keywords : List String) :
    List CommitRow :=
  (commits.insertionSort tsLe).filter
    (fun c => keywords.any (fun k => substrB (pyLower k.data) (pyLower c.message.data)))

/-- Scored candidate list of find_feature_introduction_commits. -/
def scoredMatches (commits : List CommitRow) (keywords : List String) :
    List ScoredCommit :=
  (matchingCommits commits keywords).map
    (fun c => ⟨c, relevanceScore c keywords, matchedKeywords c keywords⟩)

/-- Output row of find_feature_introduction_commits. -/
structure FeatureHit where
  hash : String
  author : String
  timestamp : Int
  message : String
  files_changed : Nat
  insertions : Nat
  deletions : Nat
  is_merge : Bool
  relevance_score : Int
  matched_keywords : List String
deriving DecidableEq

/-- Rendering of one scored entry into the returned dictionary. -/
def renderHit (sc : ScoredCommit) : FeatureHit :=
  { hash := sc.commit.id
    author := sc.commit.author_name
    timestamp := sc.commit.timestamp
    message := String.mk (pyStrip sc.commit.message.data)
    files_changed := sc.commit.files_changed
    insertions := sc.commit.insertions
    deletions := sc.commit.deletions
    is_merge := sc.commit.is_merge
    relevance_score := sc.score
    matched_keywords := sc.matched_keywords }

/-- commit_analyzer.find_feature_introduction_commits: select commits whose
lower-cased message contains any keyword, score them, sort by score
descending then timestamp ascending, and return at most the top ten. -/
def findFeatureIntroductionCommits (commits : List CommitRow)
    (keywords : List String) : List FeatureHit :=
  if keywords.isEmpty then []
  else
    (((scoredMatches commits keywords).insertionSort scoredLe).take 10).map renderHit

/-- Convenience constructor for the concrete relevance-ranking example. -/
def mkExampleCommit (h : String) (ts : Int) (msg : String) (merge : Bool) :
    CommitRow :=
  { id := h, repo_id := 1, author_name := "alice", author_email := "alice@example.com"
    committer_name := "alice", committer_email := "alice@example.com"
    timestamp := ts, message := msg, files_changed := 1
    insertions := 5, deletions := 0, is_merge := merge, branch := some "main" }

/-- The three commits of the specification's relevance-ranking example. -/
def exampleCommits : List CommitRow :=
  [mkExampleCommit "c1" 1 "add login page" false,
   mkExampleCommit "c2" 2 "mentions login twice, login again" false,
   mkExampleCommit "c3" 3 "merge login branch" true]

/-! Ingestion pipeline (commit_analyzer.analyze_repository_commits,
_process_commit, _process_file_change, _update_repository_stats). -/

/-- One modified-file entry yielded by the mining collaborator for a commit. -/
structure ModifiedFile where
  filename : String
  old_path : Option String
  new_path : Option String
  change_kind : String
  added_lines : Nat
  deleted_lines : Nat
  nloc : Option Nat
deriving DecidableEq

/-- One commit object yielded by the mining collaborator. -/
structure PCommit where
  hash : String
  author_name : String
  author_email : String
  committer : Option (String × String)
  committer_date : Int
  msg : String
  insertions : Nat
  deletions : Nat
  merge : Bool
  modified_files : List ModifiedFile
deriving DecidableEq

/-- Row of the files table (database.models.File). -/
structure FileRow where
  id : Nat
  repo_id : Nat
  path : String
  filename : String
  extension : Option String
  current_lines : Option Nat
  total_commits : Nat
  created_at : Int
  last_modified : Int
deriving DecidableEq

/-- Row of the file_changes table (database.models.FileChange). -/
structure FileChangeRow where
  commit_id : String
  file_id : Nat
  change_type : String
  insertions : Nat
  deletions : Nat
  old_path : Option String
deriving DecidableEq

/-- Rollup fields of the repositories table touched by the pipeline. -/
structure RepositoryRow where
  id : Nat
  total_commits : Nat
  total_files : Nat
  last_analyzed : Option Int
  status : String
deriving DecidableEq

/-- Persistent state written by the ingestion pipeline: the commit Ledger,
the File identity table, the Change Journal and the repository rollups.
Tables are lists in insertion order; nextFileId models the autoincrement key. -/
structure Db where
  commits : List CommitRow
  files : List FileRow
  changes : List FileChangeRow
  nextFileId : Nat
  repo : RepositoryRow
deriving DecidableEq

/-- Python truthiness of an optional string (None and the empty string are
falsy). -/
def truthyStr : Option String → Bool
  | none => false
  | some s => !(s == "")

/-- Python new_path or old_path: the first operand when truthy, else the
second operand unchanged. -/
def resolvePath (np op : Option String) : Option String :=
  if truthyStr np then np else op

/-- Python truthiness of an optional number (None and 0 are falsy). -/
def truthyNat : Option Nat → Bool
  | none => false
  | some n => !(n == 0)

/-- commit_analyzer._determine_change_type. -/
def determineChangeType (mf : ModifiedFile) : String :=
  if mf.change_kind == "ADD" then "added"
  else if mf.change_kind == "DELETE" then "deleted"
  else if mf.change_kind == "RENAME" then "renamed"
  else if mf.change_kind == "MODIFY" then "modified"
  else "unknown"

/-- Change-journal row built by _process_file_change. -/
def mkChangeRow (c : PCommit) (mf : ModifiedFile) (fileId : Nat) : FileChangeRow :=
  { commit_id := c.hash
    file_id := fileId
    change_type := determineChangeType mf
    insertions := mf.added_lines
    deletions := mf.deleted_lines
    old_path := if mf.old_path ≠ mf.new_path then mf.old_path else none }

/-- commit_analyzer._process_file_change: skip entries without a filename or
resolved path; otherwise upsert the FileRow (create with counter one, or bump
counter, refresh last_modified and, when nloc is truthy, current_lines) and
append a change row. -/
def processFileChange (repoId : Nat) (c : PCommit) (db : Db) (mf : ModifiedFile) : Db :=
  if mf.filename == "" then db
  else
    match resolvePath mf.new_path mf.old_path with
    | none => db
    | some path =>
      if path == "" then db
      else
        match db.files.find? (fun f => f.repo_id == repoId && f.path == path) with
        | none =>
          { db with
              files := db.files ++
                [{ id := db.nextFileId, repo_id := repoId, path := path
                   filename := mf.filename
                   extension := getFileExtension mf.filename
                   current_lines := none, total_commits := 1
                   created_at := c.committer_date
                   last_modified := c.committer_date }]
              nextFileId := db.nextFileId + 1
              changes := db.changes ++ [mkChangeRow c mf db.nextFileId] }
        | some fr =>
          { db with
              files := updateFirst (fun f => f.repo_id == repoId && f.path == path)
                (fun f => { f with
                    last_modified := c.committer_date
                    total_commits := f.total_commits + 1
                    current_lines := if truthyNat mf.nloc then mf.nloc else f.current_lines })
                db.files
              changes := db.changes ++ [mkChangeRow c mf fr.id] }

/-- Ledger row built by _process_commit (committer falls back to the author;
_get_commit_branch always reports main). -/
def mkCommitRow (repoId : Nat) (c : PCommit) : CommitRow :=
  { id := c.hash, repo_id := repoId
    author_name := c.author_name, author_email := c.author_email
    committer_name := match c.committer with
      | some p => p.1
      | none => c.author_name
    committer_email := match c.committer with
      | some p => p.2
      | none => c.author_email
    timestamp := c.committer_date, message := c.msg
    files_changed := c.modified_files.length
    insertions := c.insertions, deletions := c.deletions
    is_merge := c.merge, branch := some "main" }

/-- commit_analyzer._process_commit: skip a commit whose hash is already in
the Ledger (returning False, the model of returning None); otherwise insert
the CommitRow and process each modified file. -/
def processCommit (repoId : Nat) (db : Db) (c : PCommit) : Db × Bool :=
  if db.commits.any (fun r => r.id == c.hash) then (db, false)
  else
    (c.modified_files.foldl (processFileChange repoId c)
      { db with commits := db.commits ++ [mkCommitRow repoId c] }, true)

/-- Set/dict-key insertion preserving first positions. -/
def insertKey {α : Type} [BEq α] (a : α) (l : List α) : List α :=
  if l.contains a then l else l ++ [a]

/-- Keys added to files_tracked by the main analysis loop for one processed
commit: for every entry with a truthy filename, new_path or old_path. -/
def trackFiles (c : PCommit) (fs : List (Option String)) : List (Option String) :=
  c.modified_files.foldl
    (fun acc mf => if mf.filename == "" then acc
                   else insertKey (resolvePath mf.new_path mf.old_path) acc) fs

/-- Main loop of analyze_repository_commits: process each commit in order,
counting processed commits and collecting touched files and authors of the
commits processed in this run. -/
def analyzeLoop (repoId : Nat) (db : Db) (n : Nat) (fs : List (Option String))
    (auths : List String) : List PCommit → Db × Nat × List (Option String) × List String
  | [] => (db, n, fs, auths)
  | c :: rest =>
    let r := processCommit repoId db c
    if r.2 then
      analyzeLoop repoId r.1 (n + 1) (trackFiles c fs) (insertKey c.author_name auths) rest
    else
      analyzeLoop repoId r.1 n fs auths rest

/-- commit_analyzer._update_repository_stats: overwrite the repository
rollups with this run's counters and mark the repository completed. -/
def updateRepositoryStats (db : Db) (repoId totalCommits totalFiles : Nat)
    (now : Int) : Db :=
  if db.repo.id == repoId then
    { db with repo := { db.repo with
        total_commits := totalCommits
        total_files := totalFiles
        last_analyzed := some now
        status := "completed" } }
  else db

/-- Summary returned by analyze_repository_commits on success. -/
structure IngestSummary where
  success : Bool
  commits_processed : Nat
  files_tracked : Nat
  unique_authors : Nat
deriving DecidableEq

/-- commit_analyzer.analyze_repository_commits for a sequential source of
commit objects: run the main loop, then overwrite the repository rollups with
this run's counters. -/
def analyzeRepositoryCommits (repoId : Nat) (now : Int) (db : Db)
    (cs : List PCommit) : Db × IngestSummary :=
  let r := analyzeLoop repoId db 0 [] [] cs
  (updateRepositoryStats r.1 repoId r.2.1 r.2.2.1.length now,
   { success := true
     commits_processed := r.2.1
     files_tracked := r.2.2.1.length
     unique_authors := r.2.2.2.length })

/-- Hashes currently present in the commit Ledger. -/
def ledgerHashes (db : Db) : List String := db.commits.map (fun r => r.id)

/-! Re-entrancy gate of api/repository.analyze_repository.  Each request and
each background-task completion is modelled as one atomic transition on the
server state (the critical sections guarded by analysis_lock, serialized). -/

/-- In-memory analysis_status entry for one repository key. -/
structure AnalysisInfo where
  analysis_id : String
  status : String
  progress : Nat
  current_step : String
deriving DecidableEq

/-- Repository-table row as consulted by the analyze endpoint. -/
structure RepoApiRow where
  id : Nat
  url : String
  owner : String
  name : String
  status : String
deriving DecidableEq

/-- Server state: the in-memory status map keyed by owner/name, the set of
keys with an in-flight background analysis run, and the repository table. -/
structure SrvState where
  statusMap : List (String × AnalysisInfo)
  running : List String
  repos : List RepoApiRow
  nextRepoId : Nat
deriving DecidableEq

/-- Response of the analyze endpoint (ignoring presentation fields). -/
inductive AnalyzeResponse where
  | alreadyInProgress (analysis_id : String)
  | alreadyAnalyzed (repository_id : Nat)
  | dbAnalyzing (repository_id : Nat)
  | started (analysis_id : String) (repository_id : Nat)
deriving DecidableEq

/-- Dictionary lookup in the in-memory status map. -/
def lookupKey (m : List (String × AnalysisInfo)) (k : String) : Option AnalysisInfo :=
  (m.find? (fun p => p.1 == k)).map (fun p => p.2)

/-- Dictionary assignment in the in-memory status map. -/
def setKey (m : List (String × AnalysisInfo)) (k : String) (v : AnalysisInfo) :
    List (String × AnalysisInfo) :=
  match m with
  | [] => [(k, v)]
  | p :: rest => if p.1 == k then (k, v) :: rest else p :: setKey rest k v

/-- First analysis_lock critical section of the analyze handler (the gate):
under the lock, report the existing analysis identifier when the key is
marked analyzing, else fall through.  Reads only the status map. -/
def gateCheck (st : SrvState) (owner name : String) : Option AnalyzeResponse :=
  match lookupKey st.statusMap (owner ++ "/" ++ name) with
  | some info =>
    if info.status == "analyzing" then some (.alreadyInProgress info.analysis_id)
    else none
  | none => none

/-- Unlocked database work between the two critical sections: consult the
repository table by url, possibly answer already-analyzed or in-progress
(only when force_refresh is off), else create or update the repository row
with status analyzing and continue with its id.  Touches neither the status
map nor the running set. -/
def dbPhase (st : SrvState) (url owner name : String) (forceRefresh : Bool) :
    SrvState × (AnalyzeResponse ⊕ Nat) :=
  match st.repos.find? (fun r => r.url == url) with
  | some r =>
    if !forceRefresh && r.status == "completed" then (st, .inl (.alreadyAnalyzed r.id))
    else if !forceRefresh && r.status == "analyzing" then (st, .inl (.dbAnalyzing r.id))
    else
      ({ st with
          repos := updateFirst (fun x => x.url == url)
            (fun x => { x with status := "analyzing" }) st.repos },
       .inr r.id)
  | none =>
    ({ st with
        repos := st.repos ++
          [{ id := st.nextRepoId, url := url, owner := owner, name := name
             status := "analyzing" }]
        nextRepoId := st.nextRepoId + 1 },
     .inr st.nextRepoId)

/-- Second analysis_lock critical section plus the thread start: install the
fresh analyzing entry for the key and spawn the background run (the key
joins the running multiset). -/
def insertAndSpawn (st : SrvState) (owner name : String) (now : Int)
    (rid : Nat) : SrvState × AnalyzeResponse :=
  ({ st with
      statusMap := setKey st.statusMap (owner ++ "/" ++ name)
        { analysis_id := owner ++ "/" ++ name ++ "_" ++ toString now
          status := "analyzing", progress := 0
          current_step := "Starting analysis" }
      running := st.running ++ [owner ++ "/" ++ name] },
   .started (owner ++ "/" ++ name ++ "_" ++ toString now) rid)

/-- api/repository.analyze_repository for an already-validated repository,
when no other request interleaves: the gate section, then the database
phase, then the insert-and-spawn section, run back to back.  The three
pieces are separately atomic in the program (two analysis_lock sections with
unlocked database work between), so concurrent requests may interleave at
the seams; this function is their serialized composition. -/
def analyzeRepositoryStep (st : SrvState) (url owner name : String)
    (forceRefresh : Bool) (now : Int) : SrvState × AnalyzeResponse :=
  match gateCheck st owner name with
  | some resp => (st, resp)
  | none =>
    match (dbPhase st url owner name forceRefresh).2 with
    | .inl resp => ((dbPhase st url owner name forceRefresh).1, resp)
    | .inr rid =>
      insertAndSpawn (dbPhase st url owner name forceRefresh).1 owner name now rid

/-- Continuation of a request after its database phase: finish if the phase
answered, otherwise run the insert-and-spawn section with the returned id. -/
def continueInsert (p : SrvState × (AnalyzeResponse ⊕ Nat)) (owner name : String)
    (now : Int) : SrvState :=
  match p.2 with
  | .inl _ => p.1
  | .inr rid => (insertAndSpawn p.1 owner name now rid).1

/-- Completion of the background task for one key: the final status update
of _analyze_repository_background, after which the run is no longer in
flight. -/
def backgroundFinishStep (st : SrvState) (key : String) : SrvState :=
  { st with
      statusMap :=
        match lookupKey st.statusMap key with
        | some info => setKey st.statusMap key
            { info with
                status := "completed"
                progress := 100
                current_step := "Analysis completed" }
        | none => st.statusMap
      running := st.running.erase key }

/-- Single-flight property: no key has two in-flight runs, and every
in-flight key is marked analyzing in the status map. -/
def SingleFlight (st : SrvState) : Prop :=
  st.running.Nodup ∧
  ∀ k ∈ st.running, ∃ info, lookupKey st.statusMap k = some info ∧
    info.status = "analyzing"

/-! Concrete inputs for the ownership rounding analysis: forty authors
adding thirteen lines each and one author adding the rest of 100000.  Every
small share is exactly 0.013 percent of the total — 0.003 away from the
nearest cent and 0.002 away from the nearest rounding tie, so the binary64
noise of the pipeline (below 10^-12) cannot change how any share rounds. -/

/-- Change row of one author adding a given number of lines. -/
def mkChangeJoin (a : String) (ins : Nat) : ChangeJoin :=
  { author_name := a, author_email := a ++ "@example.com", timestamp := 0
    insertions := some ins, deletions := some 0 }

/-- Names of the forty small contributors. -/
def smallAuthors : List String :=
  ["a01", "a02", "a03", "a04", "a05", "a06", "a07", "a08", "a09", "a10",
   "a11", "a12", "a13", "a14", "a15", "a16", "a17", "a18", "a19", "a20",
   "a21", "a22", "a23", "a24", "a25", "a26", "a27", "a28", "a29", "a30",
   "a31", "a32", "a33", "a34", "a35", "a36", "a37", "a38", "a39", "a40"]

/-- Change list of the rounding counterexample: 40 authors with 13 added
lines each and one author with 99480, for a total of 100000 gross added
lines. -/
def roundingExampleChanges : List ChangeJoin :=
  smallAuthors.map (fun a => mkChangeJoin a 13) ++ [mkChangeJoin "z" 99480]

/-- Concrete cache row used to witness the cache-read theorem. -/
def cacheRowEx : QueryCacheRec :=
  { query_hash := generateQueryHash 1 "q", repo_id := 1, query_text := "q"
    response := "resp", created_at := 0, expires_at := 10, hit_count := 3 }

/-- Concrete change whose author deleted more lines than they added. -/
def negChange : ChangeJoin :=
  { author_name := "neg", author_email := "neg@example.com", timestamp := 0
    insertions := some 1, deletions := some 5 }

/-- One-element change list for the ownership witnesses. -/
def negChanges : List ChangeJoin := [negChange]

/-- Concrete modified-file entry for the ingestion witnesses. -/
def mfEx : ModifiedFile :=
  { filename := "main.py", old_path := none, new_path := some "src/main.py"
    change_kind := "ADD", added_lines := 2, deleted_lines := 1, nloc := some 10 }

/-- Concrete mined commit for the ingestion witnesses. -/
def pcommitEx : PCommit :=
  { hash := "h1", author_name := "alice", author_email := "alice@example.com"
    committer := none, committer_date := 5, msg := "add login page"
    insertions := 2, deletions := 1, merge := false, modified_files := [mfEx] }

/-- Empty database of one pending repository, for the ingestion witnesses. -/
def dbEx : Db :=
  { commits := [], files := [], changes := [], nextFileId := 1
    repo := { id := 1, total_commits := 0, total_files := 0
              last_analyzed := none, status := "pending" } }

/-- Database state after ingesting the example commit once. -/
def dbAfterEx : Db := (analyzeRepositoryCommits 1 0 dbEx [pcommitEx]).1

/-- In-memory status entry of an in-flight analysis, for the gate witness. -/
def infoEx : AnalysisInfo :=
  { analysis_id := "o/r_1", status := "analyzing", progress := 50
    current_step := "Analyzing commits" }

/-- Server state with one in-flight analysis, for the gate witness. -/
def srvEx : SrvState :=
  { statusMap := [("o/r", infoEx)]
    running := ["o/r"]
    repos := [{ id := 1, url := "https://github.com/o/r", owner := "o"
                name := "r", status := "analyzing" }]
    nextRepoId := 2 }

/-- Quiescent server state for the race trace: one completed repository, an
empty status map and no run in flight. -/
def raceState0 : SrvState :=
  { statusMap := []
    running := []
    repos := [{ id := 1, url := "https://github.com/o/r", owner := "o"
                name := "r", status := "completed" }]
    nextRepoId := 2 }

/-- State after request A, having passed the gate at raceState0, runs its
database phase and its insert-and-spawn section. -/
def raceMid : SrvState :=
  continueInsert (dbPhase raceState0 "https://github.com/o/r" "o" "r" true) "o" "r" 1

/-- State after request B, which also passed the gate at raceState0 before A
inserted, runs its own database phase and insert-and-spawn section. -/
def raceFinal : SrvState :=
  continueInsert (dbPhase raceMid "https://github.com/o/r" "o" "r" true) "o" "r" 2

/-! Theorems. -/

/-- Auxiliary: splitDots never returns the empty list. -/
theorem splitDots_ne_nil (l : List Char) : splitDots l ≠ [] := by
  cases l with
  | nil => simp [splitDots]
  | cons c rest =>
    simp only [splitDots]
    split
    · simp
    · cases h : splitDots rest <;> simp

/-- Auxiliary: splitting a dot-free list yields the one-segment list. -/
theorem splitDots_no_dot (l : List Char) (h : '.' ∉ l) : splitDots l = [l] := by
  induction l with
  | nil => rfl
  | cons c rest ih =>
    simp only [List.mem_cons, not_or] at h
    simp only [splitDots]
    rw [if_neg (fun hh => h.1 hh.symm), ih h.2]

/-- Auxiliary: a list containing a dot splits into at least two segments. -/
theorem two_le_splitDots_length (l : List Char) (h : '.' ∈ l) :
    2 ≤ (splitDots l).length := by
  induction l with
  | nil => cases h
  | cons c rest ih =>
    simp only [splitDots]
    by_cases hc : c = '.'
    · rw [if_pos hc]
      have := splitDots_ne_nil rest
      cases hr : splitDots rest with
      | nil => exact absurd hr this
      | cons s ss => simp
    · rw [if_neg hc]
      have hmem : '.' ∈ rest := by
        rcases List.mem_cons.mp h with h1 | h2
        · exact absurd h1.symm hc
        · exact h2
      cases hr : splitDots rest with
      | nil => exact absurd hr (splitDots_ne_nil rest)
      | cons s ss =>
        have := ih hmem
        rw [hr] at this
        simpa using this

/-- Auxiliary: getLastD steps over a cons. -/
theorem getLastD_cons_eq {α : Type} (a d : α) (l : List α) :
    (a :: l).getLastD d = l.getLastD a := by
  cases l <;> rfl

/-- Auxiliary: takeWhile across an appended singleton. -/
theorem takeWhile_append_one {α : Type} (p : α → Bool) (xs : List α) (x : α) :
    (xs ++ [x]).takeWhile p =
      if xs.all p then xs ++ (if p x then [x] else []) else xs.takeWhile p := by
  induction xs with
  | nil =>
    cases hp : p x <;> simp [List.takeWhile_cons, hp]
  | cons a t ih =>
    cases hpa : p a with
    | false => simp [List.takeWhile_cons, hpa, List.all_cons]
    | true =>
      simp only [List.cons_append, List.takeWhile_cons, hpa, List.all_cons,
        Bool.true_and, if_true]
      rw [ih]
      by_cases hall : t.all p = true
      · simp [hall]
      · simp [hall, List.takeWhile_cons, hpa]

/-- Auxiliary: the last segment of splitDots is the text after the last dot. -/
theorem splitDots_getLastD (l : List Char) :
    (splitDots l).getLastD [] =
      (l.reverse.takeWhile (fun c => c != '.')).reverse := by
  induction l with
  | nil => rfl
  | cons c rest ih =>
    have hall : (rest.reverse.all (fun c => c != '.')) = true ↔ '.' ∉ rest := by
      rw [List.all_eq_true]
      constructor
      · intro hx hmem
        have := hx '.' (List.mem_reverse.mpr hmem)
        simp at this
      · intro hx a ha
        simp only [bne_iff_ne, ne_eq]
        intro hcontra
        subst hcontra
        exact hx (List.mem_reverse.mp ha)
    rw [List.reverse_cons, takeWhile_append_one]
    by_cases hd : '.' ∈ rest
    · have hfalse : (rest.reverse.all (fun c => c != '.')) = false := by
        cases hEq : rest.reverse.all (fun c => c != '.') with
        | false => rfl
        | true => exact absurd (hall.mp hEq) (not_not_intro hd)
      rw [hfalse]
      simp only [Bool.false_eq_true, if_false]
      by_cases hc : c = '.'
      · subst hc
        have h1 : splitDots ('.' :: rest) = [] :: splitDots rest := by
          simp [splitDots]
        rw [h1, getLastD_cons_eq]
        exact ih
      · cases hr : splitDots rest with
        | nil => exact absurd hr (splitDots_ne_nil rest)
        | cons s ss =>
          have h1 : splitDots (c :: rest) = (c :: s) :: ss := by
            simp only [splitDots]
            rw [if_neg hc, hr]
          rw [h1]
          cases ss with
          | nil =>
            have hlen := two_le_splitDots_length rest hd
            rw [hr] at hlen
            simp at hlen
          | cons b bs =>
            rw [hr] at ih
            have e1 : ((c :: s) :: b :: bs).getLastD ([] : List Char) = bs.getLastD b := by
              rw [getLastD_cons_eq, getLastD_cons_eq]
            have e2 : (s :: b :: bs).getLastD ([] : List Char) = bs.getLastD b := by
              rw [getLastD_cons_eq, getLastD_cons_eq]
            rw [e1, ← e2]
            exact ih
    · rw [if_pos (hall.mpr hd)]
      by_cases hc : c = '.'
      · subst hc
        have h1 : splitDots ('.' :: rest) = [] :: splitDots rest := by
          simp [splitDots]
        have hpc : (('.' : Char) != '.') = false := by decide
        rw [h1, splitDots_no_dot rest hd, getLastD_cons_eq, hpc]
        simp [List.getLastD]
      · have hnotmem : '.' ∉ c :: rest := by
          intro hmem
          rcases List.mem_cons.mp hmem with h1 | h2
          · exact hc h1.symm
          · exact hd h2
        have hpc2 : ((c != '.')) = true := bne_iff_ne.mpr hc
        rw [splitDots_no_dot _ hnotmem, hpc2]
        simp [List.getLastD]

/-- C9: the extension recorded on a FileEntity is the lower-cased segment
after the last dot of the filename, absent exactly when the filename has no
dot; "archive.tar.gz" yields "gz" and a dot-free name yields none. -/
theorem extension_is_lowercased_last_segment :
    (∀ filename : String,
        getFileExtension filename =
          if '.' ∈ filename.data then
            some (String.mk (pyLower
              ((filename.data.reverse.takeWhile (fun c => c != '.')).reverse)))
          else none)
    ∧ getFileExtension "archive.tar.gz" = some "gz"
    ∧ getFileExtension "Makefile" = none := by
  refine ⟨fun filename => ?_, by decide, by decide⟩
  unfold getFileExtension
  by_cases h : '.' ∈ filename.data
  · rw [if_pos h, if_pos h, splitDots_getLastD]
  · rw [if_neg h, if_neg h]

/-- Auxiliary: the classifier loop computes the name of the first matching
pattern, defaulting to "other". -/
theorem classifyGo_eq_find (m : List Char) (ps : List (String × List String)) :
    classifyGo m ps =
      ((ps.find? (fun p => matchesAlts p.2 m)).map (fun p => p.1)).getD "other" := by
  induction ps with
  | nil => rfl
  | cons p rest ih =>
    cases h : matchesAlts p.2 m with
    | false =>
      simp only [classifyGo, List.find?, h]
      simp [ih]
    | true =>
      simp only [classifyGo, List.find?, h]
      simp

/-- C4: the commit-message classifier tries the prefix patterns in the fixed
priority order feat, fix, docs, style, refactor, test, chore, merge, initial,
update, add, remove and uses the first match, with unmatched messages falling
into the "other" bucket; "Fix: refactor the parser" classifies as "fix". -/
theorem classifier_first_match_priority :
    (∀ msg : String,
        classifyMessage msg =
          ((typePatterns.find?
              (fun p => matchesAlts p.2 (normalizeMsg msg))).map
            (fun p => p.1)).getD "other")
    ∧ typePatterns.map (fun p => p.1) =
        ["feat", "fix", "docs", "style", "refactor", "test", "chore", "merge",
         "initial", "update", "add", "remove"]
    ∧ classifyMessage "Fix: refactor the parser" = "fix" :=
  ⟨fun msg => classifyGo_eq_find (normalizeMsg msg) typePatterns, by decide, by decide⟩

/-- C8: the cache key is invariant under lower-casing and whitespace
trimming of the query text — queries equal after normalization produce the
same hash for the same repository. -/
theorem cache_key_normalization_invariant (rid : Nat) (q1 q2 : String)
    (h : pyStrip (pyLower q1.data) = pyStrip (pyLower q2.data)) :
    generateQueryHash rid q1 = generateQueryHash rid q2 := by
  unfold generateQueryHash
  rw [h]

/-- Witness for C8: two case/whitespace variants normalize identically and
hash identically. -/
theorem cache_key_normalization_invariant_witness :
    pyStrip (pyLower "  LogIn Page ".data) = pyStrip (pyLower "login page".data)
    ∧ generateQueryHash 7 "  LogIn Page " = generateQueryHash 7 "login page" :=
  ⟨by decide, cache_key_normalization_invariant 7 "  LogIn Page " "login page" (by decide)⟩

/-- Auxiliary: a successful find? splits the list around the found element,
with the prefix all failing the predicate. -/
theorem find?_split {α : Type} (p : α → Bool) (l : List α) (e : α)
    (h : l.find? p = some e) :
    ∃ l1 l2, l = l1 ++ e :: l2 ∧ (∀ x ∈ l1, p x = false) ∧ p e = true := by
  induction l with
  | nil => cases h
  | cons a rest ih =>
    cases hpa : p a with
    | true =>
      rw [List.find?_cons_of_pos _ hpa] at h
      obtain rfl : a = e := by injection h
      exact ⟨[], rest, rfl, by simp, hpa⟩
    | false =>
      rw [List.find?_cons_of_neg _ (by simp [hpa])] at h
      obtain ⟨l1, l2, heq, hall, hpe⟩ := ih h
      exact ⟨a :: l1, l2, by rw [heq]; rfl, by
        intro x hx
        rcases List.mem_cons.mp hx with rfl | hx2
        · exact hpa
        · exact hall x hx2, hpe⟩

/-- Auxiliary: updateFirst rewrites exactly the first matching element. -/
theorem updateFirst_split {α : Type} (p : α → Bool) (f : α → α)
    (l1 l2 : List α) (e : α) (h1 : ∀ x ∈ l1, p x = false) (he : p e = true) :
    updateFirst p f (l1 ++ e :: l2) = l1 ++ f e :: l2 := by
  induction l1 with
  | nil => simp [updateFirst, he]
  | cons a t ih =>
    have hpa : p a = false := h1 a (List.mem_cons_self a t)
    simp only [List.cons_append, updateFirst, hpa, Bool.false_eq_true, if_false,
      List.append_eq]
    rw [ih (fun x hx => h1 x (List.mem_cons_of_mem a hx))]

/-- C5: a cache read is a hit exactly when the row exists and now is strictly
before expires_at; a hit returns the stored response and bumps only that
row's hit_count by one, while an expired or missing row is a miss that
leaves the table unchanged. -/
theorem cache_read_hit_iff_unexpired (now : Int) (table : List QueryCacheRec)
    (rid : Nat) (q : String) :
    ((getCachedResponse now table rid q).1.isSome = true ↔
      ∃ e, table.find? (fun x => x.query_hash == generateQueryHash rid q) = some e
        ∧ now < e.expires_at)
    ∧ (∀ e, table.find? (fun x => x.query_hash == generateQueryHash rid q) = some e →
        now < e.expires_at →
        (getCachedResponse now table rid q).1 = some (e.response, e.created_at) ∧
        ∃ l1 l2, table = l1 ++ e :: l2 ∧
          (∀ x ∈ l1, (x.query_hash == generateQueryHash rid q) = false) ∧
          (getCachedResponse now table rid q).2 =
            l1 ++ { e with hit_count := e.hit_count + 1 } :: l2)
    ∧ (∀ e, table.find? (fun x => x.query_hash == generateQueryHash rid q) = some e →
        e.expires_at ≤ now →
        (getCachedResponse now table rid q).1 = none ∧
        (getCachedResponse now table rid q).2 = table)
    ∧ (table.find? (fun x => x.query_hash == generateQueryHash rid q) = none →
        (getCachedResponse now table rid q).1 = none ∧
        (getCachedResponse now table rid q).2 = table) := by
  refine ⟨?_, ?_, ?_, ?_⟩
  · constructor
    · intro hs
      cases hf : table.find? (fun x => x.query_hash == generateQueryHash rid q) with
      | none =>
        simp only [getCachedResponse, hf] at hs
        simp at hs
      | some e =>
        by_cases ht : now < e.expires_at
        · exact ⟨e, rfl, ht⟩
        · simp only [getCachedResponse, hf, if_neg ht] at hs
          simp at hs
    · rintro ⟨e, hf, ht⟩
      simp only [getCachedResponse, hf, if_pos ht]
      rfl
  · intro e hf ht
    obtain ⟨l1, l2, heq, hall, hpe⟩ := find?_split _ table e hf
    refine ⟨?_, l1, l2, heq, hall, ?_⟩
    · simp only [getCachedResponse, hf, if_pos ht]
    · simp only [getCachedResponse, hf, if_pos ht]
      conv_lhs => rw [heq]
      exact updateFirst_split _ _ l1 l2 e hall hpe
  · intro e hf ht
    simp only [getCachedResponse, hf, if_neg (not_lt.mpr ht)]
    simp
  · intro hf
    simp only [getCachedResponse, hf]
    simp

/-- Witness for C5: on a one-row table, an unexpired read hits, returns the
stored response and bumps hit_count from 3 to 4; an expired read misses and
leaves the table unchanged. -/
theorem cache_read_hit_iff_unexpired_witness :
    ((getCachedResponse 5 [cacheRowEx] 1 "q").1 = some ("resp", 0) ∧
      ∃ l1 l2, [cacheRowEx] = l1 ++ cacheRowEx :: l2 ∧
        (∀ x ∈ l1, (x.query_hash == generateQueryHash 1 "q") = false) ∧
        (getCachedResponse 5 [cacheRowEx] 1 "q").2 =
          l1 ++ { cacheRowEx with hit_count := cacheRowEx.hit_count + 1 } :: l2)
    ∧ ((getCachedResponse 20 [cacheRowEx] 1 "q").1 = none ∧
        (getCachedResponse 20 [cacheRowEx] 1 "q").2 = [cacheRowEx]) :=
  ⟨(cache_read_hit_iff_unexpired 5 [cacheRowEx] 1 "q").2.1 cacheRowEx (by decide)
      (by decide),
   (cache_read_hit_iff_unexpired 20 [cacheRowEx] 1 "q").2.2.1 cacheRowEx (by decide)
      (by decide)⟩

/-- Auxiliary: every ownership row is the row built for one author of the
change list. -/
theorem mem_analyzeFileOwnership (changes : List ChangeJoin) (row : OwnershipData)
    (h : row ∈ analyzeFileOwnership changes) :
    ∃ a, a ∈ ownershipAuthors changes ∧
      row = ownershipRow changes (totalLinesAdded changes) a := by
  unfold analyzeFileOwnership at h
  by_cases hne : changes.isEmpty = true
  · rw [if_pos hne] at h
    cases h
  · rw [if_neg hne] at h
    have hperm := List.perm_insertionSort pctGe
      ((ownershipAuthors changes).map (ownershipRow changes (totalLinesAdded changes)))
    have hmem := hperm.mem_iff.mp h
    obtain ⟨a, ha, hrow⟩ := List.mem_map.mp hmem
    exact ⟨a, ha, hrow.symm⟩

/-- C7: every OwnershipRecord's lines_contributed is the author's added
lines minus removed lines clamped at zero, hence never negative. -/
theorem ownership_lines_contributed_clamped (changes : List ChangeJoin)
    (row : OwnershipData) (h : row ∈ analyzeFileOwnership changes) :
    row.lines_contributed =
      max 0 (((authorAcc changes row.author_name).lines_added : Int) -
        ((authorAcc changes row.author_name).lines_removed : Int))
    ∧ 0 ≤ row.lines_contributed := by
  obtain ⟨a, _, rfl⟩ := mem_analyzeFileOwnership changes row h
  exact ⟨rfl, le_max_left 0 _⟩

/-- Witness for C7: an author with 1 added and 5 removed lines gets the
clamped net contribution 0. -/
theorem ownership_lines_contributed_clamped_witness :
    (ownershipRow negChanges (totalLinesAdded negChanges) "neg").lines_contributed =
      max 0 (((authorAcc negChanges "neg").lines_added : Int) -
        ((authorAcc negChanges "neg").lines_removed : Int))
    ∧ 0 ≤ (ownershipRow negChanges (totalLinesAdded negChanges) "neg").lines_contributed :=
  ownership_lines_contributed_clamped negChanges _
    (by
      rw [show analyzeFileOwnership negChanges =
        [ownershipRow negChanges (totalLinesAdded negChanges) "neg"] from rfl]
      exact List.mem_singleton_self _)

/-- Auxiliary: half-even rounding moves a rational by at most one half. -/
theorem abs_rndHalfEven_sub (x : ℚ) : |((rndHalfEven x : ℤ) : ℚ) - x| ≤ 1 / 2 := by
  have hf0 : 0 ≤ Int.fract x := Int.fract_nonneg x
  have hf1 : Int.fract x < 1 := Int.fract_lt_one x
  have hfl : ((⌊x⌋ : ℚ)) - x = -(Int.fract x) := by
    simp only [Int.fract]
    ring
  have hfl1 : ((⌊x⌋ + 1 : ℤ) : ℚ) - x = 1 - Int.fract x := by
    push_cast
    simp only [Int.fract]
    ring
  unfold rndHalfEven
  by_cases h1 : Int.fract x < 1 / 2
  · rw [if_pos h1]
    rw [show ((((⌊x⌋ : ℤ)) : ℚ)) - x = -(Int.fract x) from hfl]
    rw [abs_neg, abs_of_nonneg hf0]
    linarith
  · rw [if_neg h1]
    by_cases h2 : 1 / 2 < Int.fract x
    · rw [if_pos h2, hfl1, abs_of_nonneg (by linarith)]
      linarith
    · have hhalf : Int.fract x = 1 / 2 := le_antisymm (not_lt.mp h2) (not_lt.mp h1)
      by_cases h3 : Even ⌊x⌋
      · rw [if_neg h2, if_pos h3]
        rw [show ((((⌊x⌋ : ℤ)) : ℚ)) - x = -(Int.fract x) from hfl]
        rw [abs_neg, abs_of_nonneg hf0, hhalf]
      · rw [if_neg h2, if_neg h3, hfl1, hhalf]
        have habs : |(1:ℚ) - 1/2| = 1/2 := by
          rw [abs_of_nonneg] <;> norm_num
        rw [habs]

/-- Auxiliary: rounding to two decimals moves a rational by at most 1/200. -/
theorem abs_round2_sub (q : ℚ) : |round2 q - q| ≤ 1 / 200 := by
  have h := abs_rndHalfEven_sub (100 * q)
  unfold round2
  have heq : ((rndHalfEven (100 * q) : ℤ) : ℚ) / 100 - q =
      (((rndHalfEven (100 * q) : ℤ) : ℚ) - 100 * q) / 100 := by
    ring
  rw [heq, abs_div, abs_of_pos (by norm_num : (0:ℚ) < 100)]
  linarith

/-- Auxiliary: a rational strictly within one half of an integer rounds
half-even to that integer. -/
theorem rndHalfEven_eq_of_close (x : ℚ) (n : ℤ) (h : |x - (n : ℚ)| < 1 / 2) :
    rndHalfEven x = n := by
  rw [abs_lt] at h
  rcases le_or_lt (n : ℚ) x with hle | hlt
  · have hfl : ⌊x⌋ = n := by
      rw [Int.floor_eq_iff]
      refine ⟨hle, ?_⟩
      linarith [h.2]
    have hfr : Int.fract x < 1 / 2 := by
      rw [Int.fract, hfl]
      linarith [h.2]
    unfold rndHalfEven
    rw [if_pos hfr, hfl]
  · have hfl : ⌊x⌋ = n - 1 := by
      rw [Int.floor_eq_iff]
      constructor
      · push_cast
        linarith [h.1]
      · push_cast
        linarith
    have hfr : 1 / 2 < Int.fract x := by
      rw [Int.fract, hfl]
      push_cast
      linarith [h.1]
    unfold rndHalfEven
    rw [if_neg (by linarith), if_pos hfr, hfl]
    omega

/-- Auxiliary: half-even rounding of a nonnegative rational is nonnegative. -/
theorem rndHalfEven_nonneg (x : ℚ) (hx : 0 ≤ x) : 0 ≤ rndHalfEven x := by
  have h0 : 0 ≤ ⌊x⌋ := Int.floor_nonneg.mpr hx
  unfold rndHalfEven
  split
  · exact h0
  · split
    · omega
    · split
      · exact h0
      · omega

/-- Auxiliary: a rational whose hundredfold is strictly within one half of
an integer c rounds to two decimals as c/100. -/
theorem round2_eq_of_close (m : ℚ) (c : ℤ) (h : |100 * m - (c : ℚ)| < 1 / 2) :
    round2 m = (c : ℚ) / 100 := by
  unfold round2
  rw [rndHalfEven_eq_of_close (100 * m) c h]

/-- Auxiliary: two-decimal rounding of a nonnegative rational is
nonnegative. -/
theorem round2_nonneg (x : ℚ) (hx : 0 ≤ x) : 0 ≤ round2 x := by
  unfold round2
  have h := rndHalfEven_nonneg (100 * x) (by linarith)
  exact div_nonneg (by exact_mod_cast h) (by norm_num)

/-- Auxiliary: binary64 rounding of a nonnegative normal-range rational has
relative error at most one part in 2^52. -/
theorem fl64_err (x : ℚ) (hx : 0 ≤ x) : |fl64 x - x| ≤ x / 2 ^ 52 := by
  rcases hx.eq_or_lt with heq | hpos
  · rw [← heq]
    norm_num [fl64]
  · unfold fl64
    rw [if_pos hpos]
    set e := Int.log 2 x with he
    set s := x * 2 ^ (52 - e) with hs
    have h2pos : (0 : ℚ) < 2 ^ (e - 52) := by positivity
    have h2_52 : (0 : ℚ) < 2 ^ (52 : ℕ) := by positivity
    have hzpos : (0 : ℚ) < 2 ^ e := by positivity
    have hx_eq : s * 2 ^ (e - 52) = x := by
      rw [hs, mul_assoc, ← zpow_add₀ (by norm_num : (2 : ℚ) ≠ 0),
        show (52 : ℤ) - e + (e - 52) = 0 from by ring, zpow_zero, mul_one]
    have hrnd := abs_rndHalfEven_sub s
    have hlog0 : ((2 : ℕ) : ℚ) ^ Int.log 2 x ≤ x :=
      Int.zpow_log_le_self (by norm_num) hpos
    have hlog : (2 : ℚ) ^ e ≤ x := by
      rw [he]
      exact_mod_cast hlog0
    have hdiff : ((rndHalfEven s : ℤ) : ℚ) * 2 ^ (e - 52) - x =
        (((rndHalfEven s : ℤ) : ℚ) - s) * 2 ^ (e - 52) := by
      rw [sub_mul, hx_eq]
    rw [hdiff, abs_mul, abs_of_pos h2pos]
    have hpow : (2 : ℚ) ^ (e - 52) = 2 ^ e / 2 ^ (52 : ℕ) := by
      rw [zpow_sub₀ (by norm_num : (2 : ℚ) ≠ 0)]
      norm_num
    rw [hpow, ← mul_div_assoc, div_le_div_iff₀ h2_52 h2_52]
    have hbound : |((rndHalfEven s : ℤ) : ℚ) - s| * 2 ^ e ≤ x :=
      calc |((rndHalfEven s : ℤ) : ℚ) - s| * 2 ^ e ≤ 1 * 2 ^ e :=
            mul_le_mul_of_nonneg_right (by linarith [hrnd]) (le_of_lt hzpos)
        _ = 2 ^ e := one_mul _
        _ ≤ x := hlog
    exact mul_le_mul_of_nonneg_right hbound (le_of_lt h2_52)

/-- Auxiliary: binary64 rounding of a nonnegative rational is nonnegative. -/
theorem fl64_nonneg (x : ℚ) (hx : 0 ≤ x) : 0 ≤ fl64 x := by
  unfold fl64
  split
  · rename_i hpos
    refine mul_nonneg ?_ (le_of_lt (by positivity : (0:ℚ) < 2 ^ (Int.log 2 x - 52)))
    have h := rndHalfEven_nonneg (x * 2 ^ (52 - Int.log 2 x))
      (mul_nonneg (le_of_lt hpos) (le_of_lt (by positivity)))
    exact_mod_cast h
  · split
    · rename_i h1 h2
      linarith
    · exact le_refl 0

/-- Auxiliary: the float evaluation of lines_added / total * 100 is within
300/2^52 of the exact percentage when lines_added is at most total. -/
theorem pctFloat_err (a T : ℕ) (hT : 0 < T) (haT : a ≤ T) :
    |pctFloat a T - 100 * ((a : ℚ) / (T : ℚ))| ≤ 300 / 2 ^ 52 := by
  have hTpos : (0:ℚ) < (T:ℚ) := by exact_mod_cast hT
  have hq0 : (0:ℚ) ≤ (a:ℚ) / (T:ℚ) := by positivity
  have hq1 : (a:ℚ) / (T:ℚ) ≤ 1 := by
    rw [div_le_one hTpos]
    exact_mod_cast haT
  have hd0 : (0:ℚ) ≤ fl64 ((a:ℚ) / (T:ℚ)) := fl64_nonneg _ hq0
  have hdq := fl64_err ((a:ℚ) / (T:ℚ)) hq0
  have hm0 : (0:ℚ) ≤ fl64 ((a:ℚ) / (T:ℚ)) * 100 :=
    mul_nonneg hd0 (by norm_num)
  have hfm := fl64_err (fl64 ((a:ℚ) / (T:ℚ)) * 100) hm0
  rw [abs_le] at hdq hfm
  obtain ⟨hdq1, hdq2⟩ := hdq
  obtain ⟨hfm1, hfm2⟩ := hfm
  have hgoal : pctFloat a T = fl64 (fl64 ((a:ℚ) / (T:ℚ)) * 100) := rfl
  rw [hgoal, abs_le]
  constructor
  · linarith
  · linarith

/-- Auxiliary: the full percentage pipeline — float divide, float multiply,
Python round to two decimals — lands within 1/200 + 2^-43 of the exact
percentage. -/
theorem pct_pipeline_err (a T : ℕ) (hT : 0 < T) (haT : a ≤ T) :
    |pyRound2 (pctFloat a T) - 100 * ((a : ℚ) / (T : ℚ))| ≤ 1 / 200 + 1 / 2 ^ 43 := by
  have hTpos : (0:ℚ) < (T:ℚ) := by exact_mod_cast hT
  have hq0 : (0:ℚ) ≤ (a:ℚ) / (T:ℚ) := by positivity
  have hq1 : (a:ℚ) / (T:ℚ) ≤ 1 := by
    rw [div_le_one hTpos]
    exact_mod_cast haT
  have hpf := pctFloat_err a T hT haT
  have hp0 : (0:ℚ) ≤ pctFloat a T := by
    have hd0 : (0:ℚ) ≤ fl64 ((a:ℚ) / (T:ℚ)) := fl64_nonneg _ hq0
    exact fl64_nonneg _ (mul_nonneg hd0 (by norm_num))
  have hr0 : (0:ℚ) ≤ round2 (pctFloat a T) := round2_nonneg _ hp0
  have hr2 := abs_round2_sub (pctFloat a T)
  have hfl := fl64_err (round2 (pctFloat a T)) hr0
  rw [abs_le] at hpf hr2 hfl
  obtain ⟨hpf1, hpf2⟩ := hpf
  obtain ⟨hr21, hr22⟩ := hr2
  obtain ⟨hfl1, hfl2⟩ := hfl
  have hgoal : pyRound2 (pctFloat a T) = fl64 (round2 (pctFloat a T)) := rfl
  rw [hgoal, abs_le]
  constructor
  · linarith
  · linarith

/-- Auxiliary: two list sums differ by at most a uniform pointwise bound per
element. -/
theorem abs_sum_sub_sum_le {α : Type} (l : List α) (f g : α → ℚ) (B : ℚ)
    (h : ∀ a ∈ l, |f a - g a| ≤ B) :
    |(l.map f).sum - (l.map g).sum| ≤ (l.length : ℚ) * B := by
  induction l with
  | nil => simp
  | cons a t ih =>
    simp only [List.map_cons, List.sum_cons, List.length_cons]
    have h1 := h a (List.mem_cons_self a t)
    have h2 := ih (fun x hx => h x (List.mem_cons_of_mem a hx))
    have tri : |f a + (t.map f).sum - (g a + (t.map g).sum)| ≤
        |f a - g a| + |(t.map f).sum - (t.map g).sum| := by
      have heq : f a + (t.map f).sum - (g a + (t.map g).sum) =
          (f a - g a) + ((t.map f).sum - (t.map g).sum) := by ring
      rw [heq]
      exact abs_add _ _
    push_cast
    linarith

/-- Auxiliary: shares computed against the exact total sum to exactly 100. -/
theorem sum_shares (authors : List String) (added : String → ℕ) (T : ℕ)
    (hT : 0 < T) (hsum : (authors.map (fun a => added a)).sum = T) :
    (authors.map (fun a => (added a : ℚ) / (T : ℚ) * 100)).sum = 100 := by
  have hfun : (fun a => (added a : ℚ) / (T : ℚ) * 100) =
      fun a => (added a : ℚ) * (100 / (T : ℚ)) := by
    funext a
    ring
  rw [hfun, List.sum_map_mul_right]
  have hcast : (authors.map (fun a => ((added a : ℕ) : ℚ))).sum =
      (((authors.map (fun a => added a)).sum : ℕ) : ℚ) := by
    rw [Nat.cast_list_sum, List.map_map]
    rfl
  rw [hcast, hsum]
  have hTne : (T : ℚ) ≠ 0 := by
    have hpos : (0 : ℚ) < (T : ℚ) := by exact_mod_cast hT
    exact ne_of_gt hpos
  field_simp

/-- Auxiliary: the sum of the output percentages equals the sum of the
per-author percentages (sorting permutes). -/
theorem sum_pct_eq (changes : List ChangeJoin) (hne : changes.isEmpty = false) :
    ((analyzeFileOwnership changes).map (fun r => r.percentage)).sum =
      ((ownershipAuthors changes).map
        (fun a => (ownershipRow changes (totalLinesAdded changes) a).percentage)).sum := by
  unfold analyzeFileOwnership
  rw [if_neg (by simp [hne])]
  have hperm := (List.perm_insertionSort pctGe
    ((ownershipAuthors changes).map
      (ownershipRow changes (totalLinesAdded changes)))).map
    (fun r : OwnershipData => r.percentage)
  rw [List.Perm.sum_eq hperm, List.map_map]
  rfl

/-- Auxiliary: the percentage of one ownership row with a positive total. -/
theorem ownershipRow_percentage (changes : List ChangeJoin) (total : Nat)
    (a : String) (h : 0 < total) :
    (ownershipRow changes total a).percentage =
      pyRound2 (pctFloat (authorAcc changes a).lines_added total) := by
  show pyRound2 (if 0 < total then
      pctFloat (authorAcc changes a).lines_added total else 0) = _
  rw [if_pos h]

/-- Auxiliary: summing a function that is constant on the list's members. -/
theorem sum_map_eq_of_mem {α : Type} (l : List α) (f : α → ℚ) (c : ℚ)
    (h : ∀ a ∈ l, f a = c) : (l.map f).sum = l.length * c := by
  induction l with
  | nil => simp
  | cons a t ih =>
    simp only [List.map_cons, List.sum_cons, List.length_cons]
    rw [h a (List.mem_cons_self a t), ih (fun x hx => h x (List.mem_cons_of_mem a hx))]
    push_cast
    ring

/-- C2 (amended): each author's percentage is the binary64 evaluation of
lines_added / total_lines_added * 100 (true division then multiplication,
each correctly rounded to the nearest double), passed through Python
round(_, 2) (exact half-even decimal rounding of the double's value,
converted back to the nearest double).  Every percentage is within
1/200 + 2^-43 of the exact share of 100, the percentage sum is within that
bound per author of 100, hence within 0.1 of 100 whenever the file has at
most nineteen authors. -/
theorem ownership_percentage_formula_and_sum (changes : List ChangeJoin)
    (hT : 0 < totalLinesAdded changes) :
    (∀ row ∈ analyzeFileOwnership changes,
        row.percentage =
          pyRound2 (pctFloat (authorAcc changes row.author_name).lines_added
            (totalLinesAdded changes)))
    ∧ (∀ row ∈ analyzeFileOwnership changes,
        |row.percentage -
            100 * (((authorAcc changes row.author_name).lines_added : ℚ) /
              (totalLinesAdded changes : ℚ))| ≤ 1 / 200 + 1 / 2 ^ 43)
    ∧ |((analyzeFileOwnership changes).map (fun r => r.percentage)).sum - 100| ≤
        ((ownershipAuthors changes).length : ℚ) * (1 / 200 + 1 / 2 ^ 43)
    ∧ ((ownershipAuthors changes).length ≤ 19 →
        |((analyzeFileOwnership changes).map (fun r => r.percentage)).sum - 100| ≤
          1 / 10) := by
  have hmemle : ∀ a ∈ ownershipAuthors changes,
      (authorAcc changes a).lines_added ≤ totalLinesAdded changes := by
    intro a ha
    unfold totalLinesAdded
    exact List.single_le_sum (fun x _ => Nat.zero_le x) _
      (List.mem_map_of_mem (fun a2 => (authorAcc changes a2).lines_added) ha)
  have hptw : ∀ a ∈ ownershipAuthors changes,
      |(ownershipRow changes (totalLinesAdded changes) a).percentage -
          ((authorAcc changes a).lines_added : ℚ) /
            (totalLinesAdded changes : ℚ) * 100| ≤ 1 / 200 + 1 / 2 ^ 43 := by
    intro a ha
    rw [ownershipRow_percentage _ _ _ hT]
    have h := pct_pipeline_err (authorAcc changes a).lines_added
      (totalLinesAdded changes) hT (hmemle a ha)
    have heq : ((authorAcc changes a).lines_added : ℚ) /
        (totalLinesAdded changes : ℚ) * 100 =
        100 * (((authorAcc changes a).lines_added : ℚ) /
          (totalLinesAdded changes : ℚ)) := by ring
    rw [heq]
    exact h
  have hemp : changes.isEmpty = false := by
    cases hc : changes.isEmpty with
    | false => rfl
    | true =>
      exfalso
      have hnil : changes = [] := List.isEmpty_iff.mp hc
      rw [hnil] at hT
      simp [totalLinesAdded, ownershipAuthors, firstOccs] at hT
  have hkey : |((analyzeFileOwnership changes).map (fun r => r.percentage)).sum - 100| ≤
      ((ownershipAuthors changes).length : ℚ) * (1 / 200 + 1 / 2 ^ 43) := by
    rw [sum_pct_eq changes hemp]
    have hsumg : ((ownershipAuthors changes).map
        (fun a => ((authorAcc changes a).lines_added : ℚ) /
          (totalLinesAdded changes : ℚ) * 100)).sum = 100 :=
      sum_shares (ownershipAuthors changes)
        (fun a => (authorAcc changes a).lines_added) (totalLinesAdded changes) hT rfl
    have hb := abs_sum_sub_sum_le (ownershipAuthors changes)
      (fun a => (ownershipRow changes (totalLinesAdded changes) a).percentage)
      (fun a => ((authorAcc changes a).lines_added : ℚ) /
        (totalLinesAdded changes : ℚ) * 100)
      (1 / 200 + 1 / 2 ^ 43) hptw
    rw [hsumg] at hb
    exact hb
  refine ⟨?_, ?_, hkey, ?_⟩
  · intro row h
    obtain ⟨a, _, rfl⟩ := mem_analyzeFileOwnership changes row h
    rw [show (ownershipRow changes (totalLinesAdded changes) a).author_name = a
      from rfl]
    exact ownershipRow_percentage changes _ a hT
  · intro row h
    obtain ⟨a, ha, rfl⟩ := mem_analyzeFileOwnership changes row h
    rw [show (ownershipRow changes (totalLinesAdded changes) a).author_name = a
      from rfl]
    have h2 := hptw a ha
    have heq : ((authorAcc changes a).lines_added : ℚ) /
        (totalLinesAdded changes : ℚ) * 100 =
        100 * (((authorAcc changes a).lines_added : ℚ) /
          (totalLinesAdded changes : ℚ)) := by ring
    rw [heq] at h2
    exact h2
  · intro hn
    have hcast : ((ownershipAuthors changes).length : ℚ) ≤ 19 := by exact_mod_cast hn
    calc |((analyzeFileOwnership changes).map (fun r => r.percentage)).sum - 100|
        ≤ ((ownershipAuthors changes).length : ℚ) * (1 / 200 + 1 / 2 ^ 43) := hkey
      _ ≤ 19 * (1 / 200 + 1 / 2 ^ 43) :=
          mul_le_mul_of_nonneg_right hcast (by norm_num)
      _ ≤ 1 / 10 := by norm_num

/-- Witness for the amended C2 theorem at a one-author file. -/
theorem ownership_percentage_formula_and_sum_witness :
    0 < totalLinesAdded negChanges ∧
    ((∀ row ∈ analyzeFileOwnership negChanges,
        row.percentage =
          pyRound2 (pctFloat (authorAcc negChanges row.author_name).lines_added
            (totalLinesAdded negChanges)))
    ∧ (∀ row ∈ analyzeFileOwnership negChanges,
        |row.percentage -
            100 * (((authorAcc negChanges row.author_name).lines_added : ℚ) /
              (totalLinesAdded negChanges : ℚ))| ≤ 1 / 200 + 1 / 2 ^ 43)
    ∧ |((analyzeFileOwnership negChanges).map (fun r => r.percentage)).sum - 100| ≤
        ((ownershipAuthors negChanges).length : ℚ) * (1 / 200 + 1 / 2 ^ 43)
    ∧ ((ownershipAuthors negChanges).length ≤ 19 →
        |((analyzeFileOwnership negChanges).map (fun r => r.percentage)).sum - 100| ≤
          1 / 10)) :=
  ⟨by decide, ownership_percentage_formula_and_sum negChanges (by decide)⟩

/-- Auxiliary: the small shares of the rounding example — 13 added lines of
100000, an exact share of 0.013 percent — come out of the float pipeline as
the double nearest 0.01. -/
theorem pct_small_eq : pyRound2 (pctFloat 13 100000) = fl64 (1 / 100) := by
  have hp := pctFloat_err 13 100000 (by norm_num) (by norm_num)
  rw [abs_le] at hp
  obtain ⟨hp1, hp2⟩ := hp
  norm_num at hp1 hp2
  have hr := round2_eq_of_close (pctFloat 13 100000) 1 (by
    rw [abs_lt]
    push_cast
    constructor <;> linarith)
  show fl64 (round2 (pctFloat 13 100000)) = fl64 (1 / 100)
  rw [hr]
  norm_num

/-- Auxiliary: the large share of the rounding example — 99480 added lines
of 100000, an exact share of 99.48 percent — comes out of the float pipeline
as the double nearest 99.48. -/
theorem pct_z_eq : pyRound2 (pctFloat 99480 100000) = fl64 (2487 / 25) := by
  have hp := pctFloat_err 99480 100000 (by norm_num) (by norm_num)
  rw [abs_le] at hp
  obtain ⟨hp1, hp2⟩ := hp
  norm_num at hp1 hp2
  have hr := round2_eq_of_close (pctFloat 99480 100000) 9948 (by
    rw [abs_lt]
    push_cast
    constructor <;> linarith)
  show fl64 (round2 (pctFloat 99480 100000)) = fl64 (2487 / 25)
  rw [hr]
  norm_num

/-- Counterexample to C2 as stated: a file with 41 authors (40 adding 13
lines each, one adding 99480, total 100000) has every small share equal to
0.013 percent, which rounds down to 0.01, and the large share exactly 99.48;
the percentage sum is at most 99.8801, so it misses 100 by more than 0.1
even though the total of gross added lines is positive. -/
theorem ownership_percentage_sum_counterexample :
    0 < totalLinesAdded roundingExampleChanges ∧
    1 / 10 < |((analyzeFileOwnership roundingExampleChanges).map
      (fun r => r.percentage)).sum - 100| := by
  have hne : roundingExampleChanges.isEmpty = false := by decide
  have h1 := sum_pct_eq roundingExampleChanges hne
  have hauth : ownershipAuthors roundingExampleChanges = smallAuthors ++ ["z"] := by
    decide
  have htot : totalLinesAdded roundingExampleChanges = 100000 := by decide
  rw [hauth, htot, List.map_append, List.sum_append] at h1
  have hadds : ∀ a ∈ smallAuthors,
      (authorAcc roundingExampleChanges a).lines_added = 13 := by decide
  have hpct_small : ∀ a ∈ smallAuthors,
      (ownershipRow roundingExampleChanges 100000 a).percentage = fl64 (1 / 100) := by
    intro a ha
    rw [ownershipRow_percentage _ _ _ (by norm_num), hadds a ha]
    exact pct_small_eq
  have hsum_small : (smallAuthors.map
      (fun a => (ownershipRow roundingExampleChanges 100000 a).percentage)).sum =
      40 * fl64 (1 / 100) := by
    rw [sum_map_eq_of_mem _ _ _ hpct_small]
    norm_num [smallAuthors]
  have hzadd : (authorAcc roundingExampleChanges "z").lines_added = 99480 := by
    decide
  have hz : (ownershipRow roundingExampleChanges 100000 "z").percentage =
      fl64 (2487 / 25) := by
    rw [ownershipRow_percentage _ _ _ (by norm_num), hzadd]
    exact pct_z_eq
  have h2 : ((["z"] : List String).map
      (fun a => (ownershipRow roundingExampleChanges 100000 a).percentage)).sum =
      fl64 (2487 / 25) := by
    simp [hz]
  rw [hsum_small, h2] at h1
  have he1 := fl64_err (1 / 100) (by norm_num)
  have he2 := fl64_err (2487 / 25) (by norm_num)
  rw [abs_le] at he1 he2
  obtain ⟨he1a, he1b⟩ := he1
  obtain ⟨he2a, he2b⟩ := he2
  refine ⟨by decide, ?_⟩
  rw [h1]
  have hupper : 40 * fl64 (1 / 100) + fl64 (2487 / 25) - 100 ≤ -(11 / 100) := by
    linarith
  have habs : |40 * fl64 (1 / 100) + fl64 (2487 / 25) - 100| =
      -(40 * fl64 (1 / 100) + fl64 (2487 / 25) - 100) :=
    abs_of_nonpos (by linarith)
  rw [habs]
  linarith

/-- Auxiliary: boolean prefix test agrees with the prefix relation. -/
theorem isPrefixOfIff {α : Type} [BEq α] [LawfulBEq α] (l1 l2 : List α) :
    l1.isPrefixOf l2 = true ↔ l1 <+: l2 :=
  List.isPrefixOf_iff_prefix

/-- Auxiliary: the boolean substring test agrees with the infix relation. -/
theorem substrB_correct (pat s : List Char) :
    substrB pat s = true ↔ pat <:+: s := by
  induction s with
  | nil =>
    simp only [substrB, List.isEmpty_iff, List.infix_nil]
  | cons c rest ih =>
    simp only [substrB, Bool.or_eq_true, ih, List.infix_cons_iff]
    constructor
    · rintro (h1 | h2)
      · exact Or.inl ((isPrefixOfIff _ _).mp h1)
      · exact Or.inr h2
    · rintro (h1 | h2)
      · exact Or.inl ((isPrefixOfIff _ _).mpr h1)
      · exact Or.inr h2

/-- Auxiliary: a pattern absent from the text has zero occurrences, for any
fuel. -/
theorem countOccF_eq_zero (pat : List Char) (fuel : Nat) (s : List Char)
    (h : substrB pat s = false) : countOccF pat fuel s = 0 := by
  induction fuel generalizing s with
  | zero => rfl
  | succ n ih =>
    cases s with
    | nil =>
      simp only [substrB] at h
      simp [countOccF, h]
    | cons c rest =>
      rw [show substrB pat (c :: rest) =
        (pat.isPrefixOf (c :: rest) || substrB pat rest) from rfl,
        Bool.or_eq_false_iff] at h
      simp only [countOccF]
      rw [if_neg (by simp [h.1])]
      exact ih rest h.2

/-- Auxiliary: a pattern absent from the text has Python count zero. -/
theorem countOcc_eq_zero (s pat : List Char) (h : substrB pat s = false) :
    countOcc s pat = 0 :=
  countOccF_eq_zero pat (s.length + 1) s h

/-- Auxiliary: a keyword found in the lower-cased first line is found in the
lower-cased full message. -/
theorem substrB_firstLine_imp (msg : List Char) (kl : List Char)
    (h : substrB kl (pyLower (firstLine msg)) = true) :
    substrB kl (pyLower msg) = true := by
  rw [substrB_correct] at h ⊢
  have hpre : firstLine msg <+: msg := List.takeWhile_prefix _
  have hpre2 : pyLower (firstLine msg) <+: pyLower msg :=
    hpre.map Char.toLower
  exact h.trans hpre2.isInfix

/-- Auxiliary: a fold whose step adds a per-element amount sums the amounts. -/
theorem foldl_add_eq {α : Type} (g : Int → α → Int) (h : α → Int)
    (hg : ∀ s a, g s a = s + h a) (l : List α) (init : Int) :
    l.foldl g init = init + (l.map h).sum := by
  induction l generalizing init with
  | nil => simp
  | cons a t ih =>
    simp only [List.foldl_cons, List.map_cons, List.sum_cons]
    rw [hg, ih]
    ring

/-- Auxiliary: the scoring loop computes the specification's score formula. -/
theorem relevanceScore_eq_specScore (c : CommitRow) (keywords : List String) :
    relevanceScore c keywords = specScore c keywords := by
  have hkw : ∀ (s : Int) (k : String),
      keywordStep (pyLower c.message.data) (pyLower (firstLine c.message.data)) s k =
        s + (2 * (countOcc (pyLower c.message.data) (pyLower k.data) : Int) +
          (if substrB (pyLower k.data) (pyLower (firstLine c.message.data))
            then 3 else 0)) := by
    intro s k
    simp only [keywordStep]
    by_cases hin : substrB (pyLower k.data) (pyLower c.message.data) = true
    · rw [if_pos hin]
      by_cases hfl : substrB (pyLower k.data) (pyLower (firstLine c.message.data)) = true
      · rw [if_pos hfl, if_pos hfl]
        ring
      · rw [if_neg hfl, if_neg hfl]
        ring
    · have hnot : substrB (pyLower k.data) (pyLower c.message.data) = false :=
        Bool.eq_false_iff.mpr hin
      rw [if_neg hin]
      have hcount : countOcc (pyLower c.message.data) (pyLower k.data) = 0 :=
        countOcc_eq_zero _ _ hnot
      have hfl : substrB (pyLower k.data) (pyLower (firstLine c.message.data)) = false := by
        cases hc : substrB (pyLower k.data) (pyLower (firstLine c.message.data)) with
        | false => rfl
        | true => exact absurd (substrB_firstLine_imp c.message.data _ hc) (by simp [hnot])
      rw [hcount, hfl]
      simp
  have hind : ∀ (s : Int) (ind : String),
      indicatorStep (pyLower c.message.data) s ind =
        s + (if substrB ind.data (pyLower c.message.data) then (1 : Int) else 0) := by
    intro s ind
    simp only [indicatorStep]
    by_cases h : substrB ind.data (pyLower c.message.data) = true
    · rw [if_pos h, if_pos h]
    · rw [if_neg h, if_neg h]
      ring
  simp only [relevanceScore, specScore]
  rw [foldl_add_eq _ _ hkw, foldl_add_eq _ _ hind]
  cases hm : c.is_merge <;> simp

/-- Totality of the ranking order: any two scored commits compare. -/
instance : IsTotal ScoredCommit scoredLe := by
  constructor
  intro a b
  unfold scoredLe
  rcases lt_trichotomy a.score b.score with h | h | h
  · exact Or.inr (Or.inl h)
  · rcases le_total a.commit.timestamp b.commit.timestamp with ht | ht
    · exact Or.inl (Or.inr ⟨h, ht⟩)
    · exact Or.inr (Or.inr ⟨h.symm, ht⟩)
  · exact Or.inl (Or.inl h)

/-- Transitivity of the ranking order. -/
instance : IsTrans ScoredCommit scoredLe := by
  constructor
  intro a b c hab hbc
  unfold scoredLe at hab hbc ⊢
  rcases hab with h1 | ⟨h1, h1t⟩ <;> rcases hbc with h2 | ⟨h2, h2t⟩
  · exact Or.inl (h2.trans h1)
  · exact Or.inl (by rw [← h2]; exact h1)
  · exact Or.inl (by rw [h1]; exact h2)
  · exact Or.inr ⟨h1.trans h2, h1t.trans h2t⟩

/-- C1 (amended): the search scores every commit by the specification's
formula (twice each keyword occurrence, three per keyword in the first line,
one per indicator word, minus two for merges), sorts by score descending
then timestamp ascending, and returns at most ten results.  On the three
example commits with keyword login, the single-line messages of commits (2)
and (3) are their own first lines, so the title bonus applies to them too:
the scores are 7, 6 and 3 and the returned order is (2), (1), (3). -/
theorem feature_search_scoring_and_ranking :
    (∀ (c : CommitRow) (keywords : List String),
        relevanceScore c keywords = specScore c keywords)
    ∧ (∀ (commits : List CommitRow) (keywords : List String), keywords ≠ [] →
        ∃ l : List ScoredCommit,
          l.Perm (scoredMatches commits keywords) ∧
          List.Sorted scoredLe l ∧
          findFeatureIntroductionCommits commits keywords = (l.take 10).map renderHit)
    ∧ (∀ (commits : List CommitRow) (keywords : List String),
        (findFeatureIntroductionCommits commits keywords).length ≤ 10)
    ∧ ((findFeatureIntroductionCommits exampleCommits ["login"]).map
        (fun h => (h.hash, h.relevance_score)) = [("c2", 7), ("c1", 6), ("c3", 3)]) := by
  refine ⟨relevanceScore_eq_specScore, ?_, ?_, by decide⟩
  · intro commits keywords hne
    refine ⟨(scoredMatches commits keywords).insertionSort scoredLe,
      List.perm_insertionSort _ _, List.sorted_insertionSort _ _, ?_⟩
    unfold findFeatureIntroductionCommits
    rw [if_neg (by simp [List.isEmpty_iff, hne])]
  · intro commits keywords
    unfold findFeatureIntroductionCommits
    by_cases hke : keywords.isEmpty = true
    · rw [if_pos hke]
      simp
    · rw [if_neg hke]
      rw [List.length_map, List.length_take]
      exact le_trans (min_le_left _ _) (le_refl 10)

/-- Witness for C1: the general ranking statement instantiated at the three
example commits. -/
theorem feature_search_scoring_and_ranking_witness :
    ∃ l : List ScoredCommit,
      l.Perm (scoredMatches exampleCommits ["login"]) ∧
      List.Sorted scoredLe l ∧
      findFeatureIntroductionCommits exampleCommits ["login"] =
        (l.take 10).map renderHit :=
  feature_search_scoring_and_ranking.2.1 exampleCommits ["login"] (by decide)

/-- Counterexample to C1 as stated: on the example commits with keyword
login the code does not return the claimed scores 6, 4, 0 in order
(1), (2), (3) — the single-line messages of (2) and (3) receive the title
bonus. -/
theorem feature_search_example_counterexample :
    ¬ ((findFeatureIntroductionCommits exampleCommits ["login"]).map
        (fun h => (h.hash, h.relevance_score)) = [("c1", 6), ("c2", 4), ("c3", 0)]) := by
  decide

/-- Auxiliary: processing one file change never touches the commit Ledger or
the repository rollups. -/
theorem processFileChange_commits_repo (repoId : Nat) (c : PCommit) (db : Db)
    (mf : ModifiedFile) :
    (processFileChange repoId c db mf).commits = db.commits ∧
    (processFileChange repoId c db mf).repo = db.repo := by
  unfold processFileChange
  split
  · exact ⟨rfl, rfl⟩
  · split
    · exact ⟨rfl, rfl⟩
    · split
      · exact ⟨rfl, rfl⟩
      · split
        · exact ⟨rfl, rfl⟩
        · exact ⟨rfl, rfl⟩

/-- Auxiliary: folding the file changes of a commit never touches the
Ledger or the rollups. -/
theorem foldl_processFileChange_commits_repo (repoId : Nat) (c : PCommit)
    (mfs : List ModifiedFile) (db : Db) :
    (mfs.foldl (processFileChange repoId c) db).commits = db.commits ∧
    (mfs.foldl (processFileChange repoId c) db).repo = db.repo := by
  induction mfs generalizing db with
  | nil => exact ⟨rfl, rfl⟩
  | cons mf t ih =>
    rw [List.foldl_cons]
    obtain ⟨ht1, ht2⟩ := ih (processFileChange repoId c db mf)
    obtain ⟨h1, h2⟩ := processFileChange_commits_repo repoId c db mf
    exact ⟨ht1.trans h1, ht2.trans h2⟩

/-- Auxiliary: a commit whose hash is in the Ledger is skipped untouched. -/
theorem processCommit_skip (repoId : Nat) (db : Db) (c : PCommit)
    (h : db.commits.any (fun r => r.id == c.hash) = true) :
    processCommit repoId db c = (db, false) := by
  unfold processCommit
  rw [if_pos h]

/-- Auxiliary: a fresh commit is processed, appending exactly its row to the
Ledger and keeping the rollups. -/
theorem processCommit_run (repoId : Nat) (db : Db) (c : PCommit)
    (h : db.commits.any (fun r => r.id == c.hash) = false) :
    (processCommit repoId db c).2 = true ∧
    (processCommit repoId db c).1.commits = db.commits ++ [mkCommitRow repoId c] ∧
    (processCommit repoId db c).1.repo = db.repo := by
  unfold processCommit
  rw [if_neg (by simp [h])]
  obtain ⟨h1, h2⟩ := foldl_processFileChange_commits_repo repoId c c.modified_files
    { db with commits := db.commits ++ [mkCommitRow repoId c] }
  exact ⟨rfl, h1, h2⟩

/-- Auxiliary: processing a commit preserves existing Ledger hashes. -/
theorem processCommit_ledger_mono (repoId : Nat) (db : Db) (c : PCommit) (x : String)
    (hx : x ∈ ledgerHashes db) : x ∈ ledgerHashes (processCommit repoId db c).1 := by
  cases hany : db.commits.any (fun r => r.id == c.hash) with
  | true => rw [processCommit_skip repoId db c hany]; exact hx
  | false =>
    obtain ⟨-, h2, -⟩ := processCommit_run repoId db c hany
    unfold ledgerHashes at hx ⊢
    rw [h2, List.map_append]
    exact List.mem_append_left _ hx

/-- Auxiliary: after processing a commit its hash is in the Ledger. -/
theorem processCommit_hash_mem (repoId : Nat) (db : Db) (c : PCommit) :
    c.hash ∈ ledgerHashes (processCommit repoId db c).1 := by
  cases hany : db.commits.any (fun r => r.id == c.hash) with
  | true =>
    rw [processCommit_skip repoId db c hany]
    simp only [List.any_eq_true, beq_iff_eq] at hany
    obtain ⟨r, hr, hid⟩ := hany
    exact List.mem_map.mpr ⟨r, hr, hid⟩
  | false =>
    obtain ⟨-, h2, -⟩ := processCommit_run repoId db c hany
    unfold ledgerHashes
    rw [h2, List.map_append]
    refine List.mem_append_right _ ?_
    simp [mkCommitRow]

/-- Auxiliary: the main loop preserves existing Ledger hashes. -/
theorem analyzeLoop_ledger_mono (repoId : Nat) (cs : List PCommit) (db : Db)
    (n : Nat) (fs : List (Option String)) (auths : List String) (x : String)
    (hx : x ∈ ledgerHashes db) :
    x ∈ ledgerHashes (analyzeLoop repoId db n fs auths cs).1 := by
  induction cs generalizing db n fs auths with
  | nil => exact hx
  | cons c t ih =>
    simp only [analyzeLoop]
    split
    · exact ih _ _ _ _ (processCommit_ledger_mono repoId db c x hx)
    · exact ih _ _ _ _ (processCommit_ledger_mono repoId db c x hx)

/-- Auxiliary: after the main loop every input commit hash is in the Ledger. -/
theorem analyzeLoop_all_mem (repoId : Nat) (cs : List PCommit) (db : Db)
    (n : Nat) (fs : List (Option String)) (auths : List String) :
    ∀ c ∈ cs, c.hash ∈ ledgerHashes (analyzeLoop repoId db n fs auths cs).1 := by
  induction cs generalizing db n fs auths with
  | nil => intro c hc; cases hc
  | cons c t ih =>
    intro c' hc'
    rcases List.mem_cons.mp hc' with rfl | hmem
    · simp only [analyzeLoop]
      split
      · exact analyzeLoop_ledger_mono repoId t _ _ _ _ _
          (processCommit_hash_mem repoId db c')
      · exact analyzeLoop_ledger_mono repoId t _ _ _ _ _
          (processCommit_hash_mem repoId db c')
    · simp only [analyzeLoop]
      split
      · exact ih _ _ _ _ c' hmem
      · exact ih _ _ _ _ c' hmem

/-- Auxiliary: a run whose commits are all already in the Ledger changes
nothing and counts nothing. -/
theorem analyzeLoop_skip_all (repoId : Nat) (cs : List PCommit) (db : Db)
    (n : Nat) (fs : List (Option String)) (auths : List String)
    (h : ∀ c ∈ cs, c.hash ∈ ledgerHashes db) :
    analyzeLoop repoId db n fs auths cs = (db, n, fs, auths) := by
  induction cs generalizing db n fs auths with
  | nil => rfl
  | cons c t ih =>
    have hc := h c (List.mem_cons_self c t)
    have hany : db.commits.any (fun r => r.id == c.hash) = true := by
      simp only [List.any_eq_true, beq_iff_eq]
      obtain ⟨r, hr, hid⟩ := List.mem_map.mp hc
      exact ⟨r, hr, hid⟩
    simp only [analyzeLoop, processCommit_skip repoId db c hany]
    exact ih db n fs auths (fun c' hc' => h c' (List.mem_cons_of_mem c hc'))

/-- Auxiliary: the loop's processed count equals the Ledger growth. -/
theorem analyzeLoop_count (repoId : Nat) (cs : List PCommit) (db : Db)
    (n : Nat) (fs : List (Option String)) (auths : List String) :
    (analyzeLoop repoId db n fs auths cs).2.1 + db.commits.length =
      n + (analyzeLoop repoId db n fs auths cs).1.commits.length := by
  induction cs generalizing db n fs auths with
  | nil => simp only [analyzeLoop]
  | cons c t ih =>
    cases hany : db.commits.any (fun r => r.id == c.hash) with
    | true =>
      simp only [analyzeLoop, processCommit_skip repoId db c hany]
      exact ih db n fs auths
    | false =>
      obtain ⟨hp, hcom, -⟩ := processCommit_run repoId db c hany
      simp only [analyzeLoop, hp, if_true]
      have := ih (processCommit repoId db c).1 (n + 1) (trackFiles c fs)
        (insertKey c.author_name auths)
      rw [hcom] at this
      simp only [List.length_append, List.length_cons, List.length_nil] at this
      omega

/-- Auxiliary: the loop never touches the repository rollups. -/
theorem analyzeLoop_repo (repoId : Nat) (cs : List PCommit) (db : Db)
    (n : Nat) (fs : List (Option String)) (auths : List String) :
    (analyzeLoop repoId db n fs auths cs).1.repo = db.repo := by
  induction cs generalizing db n fs auths with
  | nil => rfl
  | cons c t ih =>
    cases hany : db.commits.any (fun r => r.id == c.hash) with
    | true =>
      simp only [analyzeLoop, processCommit_skip repoId db c hany]
      exact ih db n fs auths
    | false =>
      obtain ⟨hp, -, hrepo⟩ := processCommit_run repoId db c hany
      simp only [analyzeLoop, hp, if_true]
      exact (ih _ _ _ _).trans hrepo

/-- Auxiliary: updating the rollups never touches the three tables. -/
theorem updateRepositoryStats_tables (db : Db) (rid a b : Nat) (now : Int) :
    (updateRepositoryStats db rid a b now).commits = db.commits ∧
    (updateRepositoryStats db rid a b now).files = db.files ∧
    (updateRepositoryStats db rid a b now).changes = db.changes := by
  unfold updateRepositoryStats
  split
  · exact ⟨rfl, rfl, rfl⟩
  · exact ⟨rfl, rfl, rfl⟩

/-- Auxiliary: when the repository row matches, the rollups are overwritten
with the given counters and the status set to completed. -/
theorem updateRepositoryStats_repo (db : Db) (rid a b : Nat) (now : Int)
    (h : db.repo.id = rid) :
    (updateRepositoryStats db rid a b now).repo.total_commits = a ∧
    (updateRepositoryStats db rid a b now).repo.total_files = b ∧
    (updateRepositoryStats db rid a b now).repo.status = "completed" := by
  unfold updateRepositoryStats
  rw [if_pos (by simp [h])]
  exact ⟨rfl, rfl, rfl⟩

/-- C3: ingestion is idempotent at commit granularity — running the pipeline
a second time over the same commit sequence leaves the Ledger, the Journal
and every FileEntity identical, and a commit whose hash is already in the
Ledger is skipped without inserting or updating anything. -/
theorem ingestion_idempotent :
    (∀ (repoId : Nat) (now1 now2 : Int) (db : Db) (cs : List PCommit),
        (analyzeRepositoryCommits repoId now2
            (analyzeRepositoryCommits repoId now1 db cs).1 cs).1.commits =
          (analyzeRepositoryCommits repoId now1 db cs).1.commits
        ∧ (analyzeRepositoryCommits repoId now2
            (analyzeRepositoryCommits repoId now1 db cs).1 cs).1.files =
          (analyzeRepositoryCommits repoId now1 db cs).1.files
        ∧ (analyzeRepositoryCommits repoId now2
            (analyzeRepositoryCommits repoId now1 db cs).1 cs).1.changes =
          (analyzeRepositoryCommits repoId now1 db cs).1.changes)
    ∧ (∀ (repoId : Nat) (db : Db) (c : PCommit),
        c.hash ∈ ledgerHashes db → processCommit repoId db c = (db, false)) := by
  constructor
  · intro repoId now1 now2 db cs
    set db1 := (analyzeRepositoryCommits repoId now1 db cs).1 with hdb1
    have hml := analyzeLoop_all_mem repoId cs db 0 [] []
    have hcom : db1.commits = (analyzeLoop repoId db 0 [] [] cs).1.commits := by
      rw [hdb1]
      simp only [analyzeRepositoryCommits]
      exact (updateRepositoryStats_tables _ _ _ _ _).1
    have hall1 : ∀ c ∈ cs, c.hash ∈ ledgerHashes db1 := by
      intro c hc
      unfold ledgerHashes
      rw [hcom]
      exact hml c hc
    have hloop2 := analyzeLoop_skip_all repoId cs db1 0 [] [] hall1
    simp only [analyzeRepositoryCommits, hloop2]
    exact updateRepositoryStats_tables _ _ _ _ _
  · intro repoId db c hmem
    have hany : db.commits.any (fun r => r.id == c.hash) = true := by
      simp only [List.any_eq_true, beq_iff_eq]
      obtain ⟨r, hr, hid⟩ := List.mem_map.mp hmem
      exact ⟨r, hr, hid⟩
    exact processCommit_skip repoId db c hany

/-- Witness for C3: after ingesting the one-commit example, processing the
same commit again is a recorded no-op. -/
theorem ingestion_idempotent_witness :
    processCommit 1 dbAfterEx pcommitEx = (dbAfterEx, false) :=
  ingestion_idempotent.2 1 dbAfterEx pcommitEx (by decide)

/-- C10: a completed run overwrites the repository rollups with this run's
counters — total_commits is exactly the Ledger growth of the run — so a
re-run over fully ingested commits resets both rollups to zero while the
Ledger, Journal and FileEntities stay unchanged. -/
theorem rollups_overwritten_with_run_counts :
    (∀ (repoId : Nat) (now : Int) (db : Db) (cs : List PCommit),
        db.repo.id = repoId →
        (analyzeRepositoryCommits repoId now db cs).1.repo.total_commits +
            db.commits.length =
          (analyzeRepositoryCommits repoId now db cs).1.commits.length
        ∧ (analyzeRepositoryCommits repoId now db cs).1.repo.total_commits =
            (analyzeRepositoryCommits repoId now db cs).2.commits_processed
        ∧ (analyzeRepositoryCommits repoId now db cs).1.repo.total_files =
            (analyzeRepositoryCommits repoId now db cs).2.files_tracked
        ∧ (analyzeRepositoryCommits repoId now db cs).1.repo.status = "completed")
    ∧ (∀ (repoId : Nat) (now : Int) (db : Db) (cs : List PCommit),
        db.repo.id = repoId → (∀ c ∈ cs, c.hash ∈ ledgerHashes db) →
        (analyzeRepositoryCommits repoId now db cs).1.repo.total_commits = 0
        ∧ (analyzeRepositoryCommits repoId now db cs).1.repo.total_files = 0
        ∧ (analyzeRepositoryCommits repoId now db cs).1.commits = db.commits
        ∧ (analyzeRepositoryCommits repoId now db cs).1.files = db.files
        ∧ (analyzeRepositoryCommits repoId now db cs).1.changes = db.changes) := by
  constructor
  · intro repoId now db cs hid
    have hrepo := analyzeLoop_repo repoId cs db 0 [] []
    have hid2 : (analyzeLoop repoId db 0 [] [] cs).1.repo.id = repoId := by
      rw [hrepo, hid]
    have hcount := analyzeLoop_count repoId cs db 0 [] []
    obtain ⟨hts1, -, -⟩ := updateRepositoryStats_tables
      (analyzeLoop repoId db 0 [] [] cs).1 repoId
      (analyzeLoop repoId db 0 [] [] cs).2.1
      (analyzeLoop repoId db 0 [] [] cs).2.2.1.length now
    obtain ⟨hr1, hr2, hr3⟩ := updateRepositoryStats_repo
      (analyzeLoop repoId db 0 [] [] cs).1 repoId
      (analyzeLoop repoId db 0 [] [] cs).2.1
      (analyzeLoop repoId db 0 [] [] cs).2.2.1.length now hid2
    refine ⟨?_, ?_, ?_, ?_⟩
    · simp only [analyzeRepositoryCommits]
      rw [hr1, hts1]
      omega
    · simp only [analyzeRepositoryCommits]
      rw [hr1]
    · simp only [analyzeRepositoryCommits]
      rw [hr2]
    · simp only [analyzeRepositoryCommits]
      rw [hr3]
  · intro repoId now db cs hid hall
    have hloop := analyzeLoop_skip_all repoId cs db 0 [] [] hall
    obtain ⟨ht1, ht2, ht3⟩ := updateRepositoryStats_tables db repoId 0
      ([] : List (Option String)).length now
    obtain ⟨hr1, hr2, -⟩ := updateRepositoryStats_repo db repoId 0
      ([] : List (Option String)).length now hid
    simp only [analyzeRepositoryCommits, hloop]
    exact ⟨hr1, by simpa using hr2, ht1, ht2, ht3⟩

/-- Witness for C10: re-running ingestion of the example commit over the
already-ingested database resets both rollups to zero and leaves the three
tables unchanged. -/
theorem rollups_overwritten_with_run_counts_witness :
    (analyzeRepositoryCommits 1 7 dbAfterEx [pcommitEx]).1.repo.total_commits = 0
    ∧ (analyzeRepositoryCommits 1 7 dbAfterEx [pcommitEx]).1.repo.total_files = 0
    ∧ (analyzeRepositoryCommits 1 7 dbAfterEx [pcommitEx]).1.commits = dbAfterEx.commits
    ∧ (analyzeRepositoryCommits 1 7 dbAfterEx [pcommitEx]).1.files = dbAfterEx.files
    ∧ (analyzeRepositoryCommits 1 7 dbAfterEx [pcommitEx]).1.changes = dbAfterEx.changes :=
  rollups_overwritten_with_run_counts.2 1 7 dbAfterEx [pcommitEx]
    (by decide) (by decide)

/-- Auxiliary: lookup on a cons of the status map. -/
theorem lookupKey_cons (p : String × AnalysisInfo) (rest : List (String × AnalysisInfo))
    (k : String) :
    lookupKey (p :: rest) k = if p.1 == k then some p.2 else lookupKey rest k := by
  cases hc : (p.1 == k) with
  | true => simp [lookupKey, List.find?, hc]
  | false => simp [lookupKey, List.find?, hc]

/-- Auxiliary: assignment followed by lookup of the same key. -/
theorem lookupKey_setKey_same (m : List (String × AnalysisInfo)) (k : String)
    (v : AnalysisInfo) : lookupKey (setKey m k v) k = some v := by
  induction m with
  | nil =>
    simp [setKey, lookupKey, List.find?]
  | cons p rest ih =>
    simp only [setKey]
    cases hc : (p.1 == k) with
    | true =>
      rw [if_pos rfl, lookupKey_cons]
      simp
    | false =>
      rw [if_neg (by simp), lookupKey_cons, if_neg (by simp [hc])]
      exact ih

/-- Auxiliary: assignment leaves every other key's lookup unchanged. -/
theorem lookupKey_setKey_other (m : List (String × AnalysisInfo)) (k : String)
    (v : AnalysisInfo) (k2 : String) (h : k2 ≠ k) :
    lookupKey (setKey m k v) k2 = lookupKey m k2 := by
  induction m with
  | nil =>
    simp only [setKey]
    rw [lookupKey_cons, if_neg (by simp; exact fun hh => h hh.symm)]
  | cons p rest ih =>
    simp only [setKey]
    cases hc : (p.1 == k) with
    | true =>
      have hpk : p.1 = k := by simpa using hc
      rw [if_pos rfl, lookupKey_cons, lookupKey_cons]
      rw [if_neg (by simp; exact fun hh => h hh.symm),
        if_neg (by rw [hpk]; simp; exact fun hh => h hh.symm)]
    | false =>
      rw [if_neg (by simp), lookupKey_cons, lookupKey_cons, ih]

/-- Auxiliary: installing a fresh analyzing entry for a key not currently in
flight preserves the single-flight property, whatever happens to the
repository table. -/
theorem singleFlight_start (st : SrvState) (key : String) (info : AnalysisInfo)
    (hstatus : info.status = "analyzing") (repos2 : List RepoApiRow) (nid : Nat)
    (hknotin : key ∉ st.running) (hsf : SingleFlight st) :
    SingleFlight ⟨setKey st.statusMap key info, st.running ++ [key], repos2, nid⟩ := by
  obtain ⟨hnd, hrun⟩ := hsf
  constructor
  · rw [List.nodup_append]
    refine ⟨hnd, List.nodup_singleton _, ?_⟩
    intro a ha hb
    rw [List.mem_singleton.mp hb] at ha
    exact hknotin ha
  · intro k hk
    rcases List.mem_append.mp hk with hk1 | hk2
    · obtain ⟨i2, hl, hs⟩ := hrun k hk1
      have hne : k ≠ key := by
        rintro rfl
        exact hknotin hk1
      exact ⟨i2, by rw [show (⟨setKey st.statusMap key info, st.running ++ [key],
        repos2, nid⟩ : SrvState).statusMap = setKey st.statusMap key info from rfl,
        lookupKey_setKey_other _ _ _ _ hne]; exact hl, hs⟩
    · have hkk : k = key := List.mem_singleton.mp hk2
      subst hkk
      exact ⟨info, lookupKey_setKey_same _ _ _, hstatus⟩

/-- Auxiliary: the database phase touches neither the status map nor the
running set. -/
theorem dbPhase_fields (st : SrvState) (url owner name : String) (fr : Bool) :
    (dbPhase st url owner name fr).1.statusMap = st.statusMap ∧
    (dbPhase st url owner name fr).1.running = st.running := by
  unfold dbPhase
  split
  · split
    · exact ⟨rfl, rfl⟩
    · split
      · exact ⟨rfl, rfl⟩
      · exact ⟨rfl, rfl⟩
  · exact ⟨rfl, rfl⟩

/-- Auxiliary: the single-flight property only reads the status map and the
running set. -/
theorem singleFlight_of_fields (st st2 : SrvState)
    (hm : st2.statusMap = st.statusMap) (hr : st2.running = st.running)
    (hsf : SingleFlight st) : SingleFlight st2 := by
  obtain ⟨hnd, hrun⟩ := hsf
  refine ⟨by rw [hr]; exact hnd, ?_⟩
  intro k hk
  rw [hr] at hk
  rw [hm]
  exact hrun k hk

/-- Auxiliary: the insert-and-spawn section preserves the single-flight
property when its key is not already in flight. -/
theorem insertAndSpawn_preserves (st : SrvState) (owner name : String)
    (now : Int) (rid : Nat) (hknotin : (owner ++ "/" ++ name) ∉ st.running)
    (hsf : SingleFlight st) :
    SingleFlight (insertAndSpawn st owner name now rid).1 :=
  singleFlight_start st (owner ++ "/" ++ name) _ rfl st.repos st.nextRepoId
    hknotin hsf

/-- C6 (amended): under serialized requests the analyze endpoint is a
single-flight gate — a request for a repository whose key is marked
analyzing in the in-memory status map gets the existing analysis identifier
back and changes nothing, and both the serialized request transition and
the background-completion transition preserve the invariant that each key
has at most one in-flight run.  The gate and the insert are separate lock
sections, so the invariant is only guaranteed when no second request
interleaves between them. -/
theorem single_flight_gate :
    (∀ (st : SrvState) (url owner name : String) (fr : Bool) (now : Int)
        (info : AnalysisInfo),
        lookupKey st.statusMap (owner ++ "/" ++ name) = some info →
        info.status = "analyzing" →
        analyzeRepositoryStep st url owner name fr now =
          (st, AnalyzeResponse.alreadyInProgress info.analysis_id))
    ∧ (∀ (st : SrvState) (url owner name : String) (fr : Bool) (now : Int),
        SingleFlight st →
        SingleFlight (analyzeRepositoryStep st url owner name fr now).1)
    ∧ (∀ (st : SrvState) (key : String),
        SingleFlight st → SingleFlight (backgroundFinishStep st key)) := by
  refine ⟨?_, ?_, ?_⟩
  · intro st url owner name fr now info hl hs
    simp only [analyzeRepositoryStep, gateCheck, hl]
    rw [if_pos (by simp [hs])]
  · intro st url owner name fr now hsf
    have hfields := dbPhase_fields st url owner name fr
    simp only [analyzeRepositoryStep]
    split
    · exact hsf
    · rename_i hg
      have hsf2 : SingleFlight (dbPhase st url owner name fr).1 :=
        singleFlight_of_fields st _ hfields.1 hfields.2 hsf
      split
      · exact hsf2
      · rename_i rid hdb
        refine insertAndSpawn_preserves _ owner name now rid ?_ hsf2
        rw [hfields.2]
        intro hmem
        obtain ⟨i, hl, hs⟩ := hsf.2 _ hmem
        simp only [gateCheck, hl] at hg
        rw [if_pos (by simp [hs])] at hg
        cases hg
  · intro st key hsf
    obtain ⟨hnd, hrun⟩ := hsf
    constructor
    · exact hnd.erase key
    · intro k hk
      have hkmem : k ∈ st.running := List.mem_of_mem_erase hk
      have hkne : k ≠ key := ((List.Nodup.mem_erase_iff hnd).mp hk).1
      obtain ⟨i2, hl, hs⟩ := hrun k hkmem
      refine ⟨i2, ?_, hs⟩
      cases hlk : lookupKey st.statusMap key with
      | none =>
        have hmap : (backgroundFinishStep st key).statusMap = st.statusMap := by
          unfold backgroundFinishStep
          rw [hlk]
        show lookupKey (backgroundFinishStep st key).statusMap k = some i2
        rw [hmap]
        exact hl
      | some i3 =>
        show lookupKey (backgroundFinishStep st key).statusMap k = some i2
        have hmap : (backgroundFinishStep st key).statusMap =
            setKey st.statusMap key
              { i3 with
                  status := "completed"
                  progress := 100
                  current_step := "Analysis completed" } := by
          unfold backgroundFinishStep
          rw [hlk]
        rw [hmap, lookupKey_setKey_other _ _ _ _ hkne]
        exact hl

/-- Witness for C6: on a state with one in-flight analysis for key o/r, a
second request returns the existing identifier unchanged, and completing the
background run preserves the single-flight invariant. -/
theorem single_flight_gate_witness :
    analyzeRepositoryStep srvEx "https://github.com/o/r" "o" "r" false 9 =
      (srvEx, AnalyzeResponse.alreadyInProgress "o/r_1")
    ∧ SingleFlight (backgroundFinishStep srvEx "o/r") := by
  have hsf : SingleFlight srvEx := by
    constructor
    · decide
    · intro k hk
      have hkk : k = "o/r" := List.mem_singleton.mp hk
      subst hkk
      exact ⟨infoEx, by decide, rfl⟩
  exact ⟨single_flight_gate.1 srvEx "https://github.com/o/r" "o" "r" false 9 infoEx
      (by decide) rfl,
    single_flight_gate.2.2 srvEx "o/r" hsf⟩

/-- Counterexample to C6 as stated: the gate check and the status-map insert
are separate analysis_lock critical sections with unlocked database work
between them, so two concurrent requests for the same repository can both
pass the gate on the initial state (it answers none there) before either
inserts; each then runs its database phase and insert section, and the
final state carries two in-flight runs for the key o/r, violating the
single-flight invariant that held initially. -/
theorem single_flight_race_counterexample :
    gateCheck raceState0 "o" "r" = none
    ∧ SingleFlight raceState0
    ∧ raceFinal.running = ["o/r", "o/r"]
    ∧ ¬ SingleFlight raceFinal := by
  refine ⟨by decide, ⟨by decide, ?_⟩, by decide, ?_⟩
  · intro k hk
    exact absurd hk (by simp [raceState0])
  · intro hsf
    have hnd := hsf.1
    rw [show raceFinal.running = ["o/r", "o/r"] from by decide] at hnd
    exact absurd hnd (by decide)

end CodebaseTM
